import Mathlib

/-!
Shallow embedding of `src/src/sortitionSumTree.rs` (a registry of k-ary
sortition sum trees) and verification of its specification.

Modelling conventions:
- `u128` values are `Nat` with arithmetic reduced modulo `2^128`
  (release-mode wrapping semantics; a debug build would panic at exactly
  the inputs where the wrap occurs).
- `usize` values are `Nat`.
- Rust `HashMap`s are association lists with insert-replaces-key semantics.
- A Rust `Vec` used as a stack keeps its top at the END of the list
  (`push` appends, `pop` drops the last element), matching `Vec` layout.
- Operations that can panic (out-of-bounds indexing, division or modulo
  by zero, missing `HashMap` index) or diverge return `Option`, with
  `none` modelling the panic/divergence.
-/

/-- 128-bit modulus for u128 wrapping arithmetic. -/
def U128MOD : Nat := 2 ^ 128

/-- Wrapping u128 addition (`a + b` in release-mode Rust). -/
def wadd (a b : Nat) : Nat := (a + b) % U128MOD

/-- Wrapping u128 subtraction (`a - b` in release-mode Rust, for `a b < 2^128`). -/
def wsub (a b : Nat) : Nat := (a + U128MOD - b) % U128MOD

/-- `type TypeAddress = u128` from the source. -/
abbrev TypeAddress := Nat

/-- `type TypeKey = u128` from the source. -/
abbrev TypeKey := Nat

/-- Association-list lookup, modelling `HashMap::get`. -/
def alookup {β : Type} (l : List (Nat × β)) (a : Nat) : Option β :=
  match l with
  | [] => none
  | (k, v) :: rest => if k = a then some v else alookup rest a

/-- Association-list removal, modelling `HashMap::remove`. -/
def aremove {β : Type} (l : List (Nat × β)) (a : Nat) : List (Nat × β) :=
  l.filter (fun p => decide (p.1 ≠ a))

/-- Association-list insert, modelling `HashMap::insert` (replaces the key). -/
def ainsert {β : Type} (l : List (Nat × β)) (a : Nat) (b : β) : List (Nat × β) :=
  (a, b) :: aremove l a

/-- `struct SortitionSumTree` from the source. -/
structure SortitionSumTree where
  K : Nat
  stack : List Nat
  nodes : List Nat
  ids_to_node_indexes : List (TypeAddress × Nat)
  node_indexes_to_ids : List (Nat × TypeAddress)
deriving DecidableEq

/-- `struct SortitionSumTrees` (the registry): a map from key to tree. -/
abbrev SortitionSumTrees : Type := List (TypeKey × SortitionSumTree)

/-- `SortitionSumTree::new(k)`. -/
def SortitionSumTree.new (k : Nat) : SortitionSumTree :=
  { K := k, stack := [], nodes := [], ids_to_node_indexes := [], node_indexes_to_ids := [] }

/-- `create_tree`: insert a fresh tree (one root node of weight 0) under `key`. -/
def create_tree (trees : SortitionSumTrees) (key : TypeKey) (k : Nat) : SortitionSumTrees :=
  ainsert trees key { SortitionSumTree.new k with nodes := [0] }

/-- The `while parent_index != 0` loop of `update_parents`.
`none` models a Rust panic: an out-of-bounds node index, or the division
`(parent_index - 1) / tree.K` when `K = 0`. -/
def updateParentsLoop (K : Nat) (plus_or_minus : Bool) (value : Nat)
    (p : Nat) (nodes : List Nat) : Option (List Nat) :=
  if p = 0 then some nodes
  else if K = 0 then none
  else if (p - 1) / K < nodes.length then
    updateParentsLoop K plus_or_minus value ((p - 1) / K)
      (nodes.set ((p - 1) / K)
        (if plus_or_minus then wadd (nodes.getD ((p - 1) / K) 0) value
         else wsub (nodes.getD ((p - 1) / K) 0) value))
  else none
termination_by p
decreasing_by
  exact Nat.lt_of_le_of_lt (Nat.div_le_self _ _) (by omega)

/-- `update_parents(key, tree_index, plus_or_minus, value)`. -/
def update_parents (trees : SortitionSumTrees) (key : TypeKey) (tree_index : Nat)
    (plus_or_minus : Bool) (value : Nat) : Option SortitionSumTrees :=
  match alookup trees key with
  | none => some trees
  | some tree =>
    match updateParentsLoop tree.K plus_or_minus value tree_index tree.nodes with
    | none => none
    | some nodes' => some (ainsert trees key { tree with nodes := nodes' })

/-- Common tail of the insertion paths of `set` (lines 129-132 of the source):
bind `id` to `tree_index` in both maps, then `update_parents(key, tree_index, true, value)`. -/
def bind_and_update (trees : SortitionSumTrees) (key : TypeKey) (tree : SortitionSumTree)
    (tree_index : Nat) (value : Nat) (id : TypeAddress) : Option SortitionSumTrees :=
  let tree2 := { tree with
    ids_to_node_indexes := ainsert tree.ids_to_node_indexes id tree_index,
    node_indexes_to_ids := ainsert tree.node_indexes_to_ids tree_index id }
  update_parents (ainsert trees key tree2) key tree_index true value

/-- `set(key, value, id)`.  `none` models a Rust panic. -/
def SortitionSumTrees.set (trees : SortitionSumTrees) (key : TypeKey) (value : Nat)
    (id : TypeAddress) : Option SortitionSumTrees :=
  match alookup trees key with
  | none => some trees
  | some tree =>
    match alookup tree.ids_to_node_indexes id with
    | some tree_index =>
      if value = 0 then
        -- remove
        if tree_index < tree.nodes.length then
          let w := tree.nodes.getD tree_index 0
          let tree' := { tree with
            nodes := tree.nodes.set tree_index 0,
            stack := tree.stack ++ [tree_index],
            node_indexes_to_ids := aremove tree.node_indexes_to_ids tree_index,
            ids_to_node_indexes := aremove tree.ids_to_node_indexes id }
          update_parents (ainsert trees key tree') key tree_index false w
        else none
      else
        if tree_index < tree.nodes.length then
          if value = tree.nodes.getD tree_index 0 then some trees
          else
            -- new value, != 0: set and propagate the signed delta
            let w := tree.nodes.getD tree_index 0
            let pomv := if w ≤ value then value - w else w - value
            let tree' := { tree with nodes := tree.nodes.set tree_index value }
            update_parents (ainsert trees key tree') key tree_index (decide (w ≤ value)) pomv
        else none
    | none =>
      if value = 0 then some trees
      else
        if tree.stack.length = 0 then
          -- no vacant node: append
          let tree_index := tree.nodes.length
          let nodes1 := tree.nodes ++ [value]
          if tree_index = 1 then
            bind_and_update trees key { tree with nodes := nodes1 } tree_index value id
          else if tree.K = 0 then none  -- Rust: `(tree_index - 1) % tree.K` panics
          else if (tree_index - 1) % tree.K = 0 then
            -- first child node: move the parent down
            let parent_index := tree_index / tree.K
            match alookup tree.node_indexes_to_ids parent_index with
            | none => none  -- Rust: `HashMap` index panics when the key is absent
            | some parent_id =>
              let new_index := tree_index + 1
              if parent_index < nodes1.length then
                let tree' := { tree with
                  nodes := nodes1 ++ [nodes1.getD parent_index 0],
                  node_indexes_to_ids :=
                    ainsert (aremove tree.node_indexes_to_ids parent_index) new_index parent_id,
                  ids_to_node_indexes := ainsert tree.ids_to_node_indexes parent_id new_index }
                bind_and_update trees key tree' tree_index value id
              else none
          else
            bind_and_update trees key { tree with nodes := nodes1 } tree_index value id
        else
          -- vacant node: pop the top of the stack
          match tree.stack.getLast? with
          | none => none
          | some tree_index =>
            if tree_index < tree.nodes.length then
              let tree' := { tree with
                stack := tree.stack.dropLast,
                nodes := tree.nodes.set tree_index value }
              bind_and_update trees key tree' tree_index value id
            else none

/-- `stake_of(key, id)`.  `none` models the panic of `tree.nodes[*tree_index]`. -/
def stake_of (trees : SortitionSumTrees) (key : TypeKey) (id : TypeAddress) : Option Nat :=
  match alookup trees key with
  | none => some 0
  | some tree =>
    match alookup tree.ids_to_node_indexes id with
    | none => some 0
    | some tree_index =>
      if tree_index < tree.nodes.length then some (tree.nodes.getD tree_index 0)
      else none

/-- The inner `for i in 1..=tree.K` scan of `draw`, over the remaining list of
child offsets.  Returns `some (true, child, cdn)` on `break` (descend into
`child`), `some (false, tree_index, cdn)` when the scan completes, and `none`
on an out-of-bounds node access. -/
def draw_scan (nodes : List Nat) (K tree_index : Nat) :
    Nat → List Nat → Option (Bool × Nat × Nat)
  | cdn, [] => some (false, tree_index, cdn)
  | cdn, i :: rest =>
    let node_index := K * tree_index + i
    if node_index < nodes.length then
      let node_value := nodes.getD node_index 0
      if node_value ≤ cdn then draw_scan nodes K tree_index (cdn - node_value) rest
      else some (true, node_index, cdn)
    else none

/-- The outer `while (tree.K * tree_index) + 1 < tree.nodes.len()` loop of
`draw`.  The fuel bounds the number of iterations; `none` models a panic or
divergence of the Rust loop. -/
def draw_loop (nodes : List Nat) (K : Nat) : Nat → Nat → Nat → Option Nat
  | 0, _, _ => none
  | fuel + 1, tree_index, cdn =>
    if K * tree_index + 1 < nodes.length then
      match draw_scan nodes K tree_index cdn (List.range' 1 K) with
      | none => none
      | some (_, t', cdn') => draw_loop nodes K fuel t' cdn'
    else some tree_index

/-- `draw(key, drawn_number)`.  `none` models a Rust panic (in particular the
modulo by zero `drawn_number % tree.nodes[0]` when the root weight is 0) or a
divergence of the descent loop.  Any terminating Rust execution performs at
most `nodes.len() + cdn` loop iterations (each iteration either descends,
strictly increasing `tree_index < nodes.len()`, or strictly decreases the
remaining number), so the fuel below is sufficient for every one of them. -/
def draw (trees : SortitionSumTrees) (key : TypeKey) (drawn_number : Nat) :
    Option TypeAddress :=
  match alookup trees key with
  | none => some 0
  | some tree =>
    if 0 < tree.nodes.length then
      if tree.nodes.getD 0 0 = 0 then none
      else
        let cdn := drawn_number % tree.nodes.getD 0 0
        match draw_loop tree.nodes tree.K (tree.nodes.length + cdn + 1) 0 cdn with
        | none => none
        | some t => alookup tree.node_indexes_to_ids t
    else none

/-- The start-index search loop of `query_leaves`
(`for i in 1..=tree.nodes.len() { if tree.K + 1 >= tree.nodes.len() { start_index = i; break } }`),
iterated over the list `[1, ..., len]`; returns 0 when the loop never breaks. -/
def ql_start_loop (K len : Nat) : List Nat → Nat
  | [] => 0
  | i :: rest => if len ≤ K + 1 then i else ql_start_loop K len rest

/-- The value-collection loop of `query_leaves`, over the list of remaining
indices `j`; `acc` is the `values` vector built so far. -/
def ql_values_loop (nodes : List Nat) (count : Nat) :
    List Nat → List Nat → List Nat × Bool
  | acc, [] => (acc, false)
  | acc, j :: rest =>
    if acc.length < count then ql_values_loop nodes count (acc ++ [nodes.getD j 0]) rest
    else (acc, true)

/-- `query_leaves(key, cursor, count)`. -/
def query_leaves (trees : SortitionSumTrees) (key : TypeKey) (cursor count : Nat) :
    Nat × List Nat × Bool :=
  match alookup trees key with
  | none => (0, [], false)
  | some tree =>
    let len := tree.nodes.length
    let start_index := ql_start_loop tree.K len (List.range' 1 len)
    let loop_start_index := start_index + cursor
    let vb := ql_values_loop tree.nodes count [] (List.range' loop_start_index (len - loop_start_index))
    (start_index, vb.1, vb.2)

/-- A mutating public operation of the registry (§6 of the spec): `create_tree`
or `set`.  The read-only operations do not change the state. -/
inductive Op where
  | createTree (key : TypeKey) (k : Nat)
  | setWeight (key : TypeKey) (value : Nat) (id : TypeAddress)
deriving DecidableEq

/-- Apply one public operation. -/
def applyOp (trees : SortitionSumTrees) : Op → Option SortitionSumTrees
  | .createTree key k => some (create_tree trees key k)
  | .setWeight key value id => SortitionSumTrees.set trees key value id

/-- Run a sequence of public operations. -/
def runOps : List Op → SortitionSumTrees → Option SortitionSumTrees
  | [], trees => some trees
  | op :: rest, trees =>
    match applyOp trees op with
    | none => none
    | some trees' => runOps rest trees'

/-- Well-formed operation: `create_tree` respects the spec contract `K ≥ 2`,
and `set` receives a `u128` value. -/
def WfOp : Op → Prop
  | .createTree _ k => 2 ≤ k
  | .setWeight _ value _ => value < U128MOD

instance : DecidablePred WfOp := fun op => by
  cases op <;> simp only [WfOp] <;> infer_instance

/-- Sum of the weights stored at the child slots of node `i`
(`firstChild(i) = K*i + 1` through `K*i + K`; absent slots contribute 0). -/
def childSum (K : Nat) (nodes : List Nat) (i : Nat) : Nat :=
  ((List.range' 1 K).map (fun j => nodes.getD (K * i + j) 0)).sum

/-- Total weight of the currently active identifiers. -/
def activeSum (t : SortitionSumTree) : Nat :=
  (t.ids_to_node_indexes.map (fun p => t.nodes.getD p.2 0)).sum

/-- The list of proper ancestors of `p` (in the order `update_parents` visits
them, ending with the root). -/
def chainList (K p : Nat) : List Nat :=
  if p = 0 then []
  else (p - 1) / K :: chainList K ((p - 1) / K)
termination_by p
decreasing_by
  exact Nat.lt_of_le_of_lt (Nat.div_le_self _ _) (by omega)

/-- Reachable-state invariant of one tree. -/
structure TreeInv (t : SortitionSumTree) : Prop where
  hK : 2 ≤ t.K
  hlen : 0 < t.nodes.length
  hvals : ∀ x ∈ t.nodes, x < U128MOD
  hbij1 : ∀ p ∈ t.ids_to_node_indexes, alookup t.node_indexes_to_ids p.2 = some p.1
  hbij2 : ∀ p ∈ t.node_indexes_to_ids, alookup t.ids_to_node_indexes p.2 = some p.1
  hnodup1 : (t.ids_to_node_indexes.map Prod.fst).Nodup
  hnodup2 : (t.node_indexes_to_ids.map Prod.fst).Nodup
  hrange : ∀ p ∈ t.ids_to_node_indexes,
    1 ≤ p.2 ∧ p.2 < t.nodes.length ∧ t.nodes.length ≤ t.K * p.2 + 1 ∧ t.nodes.getD p.2 0 ≠ 0
  hleafcov : ∀ n, 1 ≤ n → n < t.nodes.length → t.nodes.length ≤ t.K * n + 1 →
    alookup t.node_indexes_to_ids n ≠ none ∨ n ∈ t.stack
  hstack : ∀ n ∈ t.stack, 1 ≤ n ∧ n < t.nodes.length ∧ t.nodes.length ≤ t.K * n + 1 ∧
    t.nodes.getD n 0 = 0 ∧ alookup t.node_indexes_to_ids n = none
  hstacknd : t.stack.Nodup
  hroot1 : t.nodes.length = 1 → t.nodes.getD 0 0 = 0
  hsum : ∀ i, t.K * i + 1 < t.nodes.length →
    t.nodes.getD i 0 = childSum t.K t.nodes i % U128MOD
  hrootsum : t.nodes.getD 0 0 = activeSum t % U128MOD

/-- Registry invariant: every tree in the registry is in a reachable state. -/
def RegInv (trees : SortitionSumTrees) : Prop :=
  ∀ p ∈ trees, TreeInv p.2

/-! ### Basic lemmas: division, association lists, `getD`, `range'` -/

/-- Characterization of Nat division used for the k-ary parent/child relation. -/
theorem nat_div_eq_iff {K : Nat} (hK : 0 < K) (m i : Nat) :
    m / K = i ↔ (K * i ≤ m ∧ m < K * i + K) := by
  constructor
  · rintro rfl
    have h1 := Nat.div_add_mod m K
    have h2 := Nat.mod_lt m hK
    omega
  · rintro ⟨h1, h2⟩
    have h3 := Nat.div_add_mod m K
    have h4 := Nat.mod_lt m hK
    by_contra hne
    rcases Nat.lt_or_ge (m / K) i with h | h
    · have h5 := Nat.mul_le_mul_left K (Nat.succ_le_of_lt h)
      rw [Nat.mul_succ] at h5
      omega
    · have hgt : i < m / K := lt_of_le_of_ne h (Ne.symm hne)
      have h5 := Nat.mul_le_mul_left K (Nat.succ_le_of_lt hgt)
      rw [Nat.mul_succ] at h5
      omega

@[simp] theorem alookup_nil {β : Type} (a : Nat) : alookup ([] : List (Nat × β)) a = none := rfl

theorem alookup_cons {β : Type} (k : Nat) (v : β) (l : List (Nat × β)) (a : Nat) :
    alookup ((k, v) :: l) a = if k = a then some v else alookup l a := rfl

@[simp] theorem alookup_ainsert_self {β : Type} (l : List (Nat × β)) (a : Nat) (b : β) :
    alookup (ainsert l a b) a = some b := by
  simp [ainsert, alookup_cons]

theorem aremove_cons {β : Type} (k : Nat) (v : β) (rest : List (Nat × β)) (a : Nat) :
    aremove ((k, v) :: rest) a =
      if k = a then aremove rest a else (k, v) :: aremove rest a := by
  simp only [aremove, List.filter_cons]
  by_cases h : k = a <;> simp [h]

theorem alookup_aremove {β : Type} (l : List (Nat × β)) (a c : Nat) :
    alookup (aremove l a) c = if a = c then none else alookup l c := by
  induction l with
  | nil => by_cases hac : a = c <;> simp [aremove, hac]
  | cons p rest ih =>
    obtain ⟨k, v⟩ := p
    rw [aremove_cons]
    by_cases hka : k = a
    · subst hka
      rw [if_pos rfl, ih, alookup_cons]
      by_cases hkc : k = c <;> simp [hkc]
    · rw [if_neg hka]
      by_cases hac : a = c
      · subst hac
        rw [if_pos rfl, alookup_cons, if_neg hka, ih, if_pos rfl]
      · rw [if_neg hac, alookup_cons, alookup_cons, ih, if_neg hac]

theorem alookup_aremove_self {β : Type} (l : List (Nat × β)) (a : Nat) :
    alookup (aremove l a) a = none := by simp [alookup_aremove]

theorem alookup_aremove_ne {β : Type} (l : List (Nat × β)) {a c : Nat} (h : a ≠ c) :
    alookup (aremove l a) c = alookup l c := by simp [alookup_aremove, h]

theorem alookup_ainsert {β : Type} (l : List (Nat × β)) (a c : Nat) (b : β) :
    alookup (ainsert l a b) c = if a = c then some b else alookup l c := by
  by_cases hac : a = c
  · subst hac; simp
  · simp [ainsert, alookup_cons, hac, alookup_aremove_ne l hac]

theorem alookup_ainsert_ne {β : Type} (l : List (Nat × β)) {a c : Nat} (b : β) (h : a ≠ c) :
    alookup (ainsert l a b) c = alookup l c := by simp [alookup_ainsert, h]

theorem alookup_mem {β : Type} {l : List (Nat × β)} {a : Nat} {b : β}
    (h : alookup l a = some b) : (a, b) ∈ l := by
  induction l with
  | nil => simp at h
  | cons p rest ih =>
    obtain ⟨k, v⟩ := p
    rw [alookup_cons] at h
    by_cases hka : k = a
    · subst hka; simp at h; simp [h]
    · simp [hka] at h
      exact List.mem_cons_of_mem _ (ih h)

theorem mem_aremove_iff {β : Type} (l : List (Nat × β)) (a : Nat) (p : Nat × β) :
    p ∈ aremove l a ↔ p ∈ l ∧ p.1 ≠ a := by
  simp [aremove, List.mem_filter]

theorem mem_ainsert_iff {β : Type} (l : List (Nat × β)) (a : Nat) (b : β) (p : Nat × β) :
    p ∈ ainsert l a b ↔ p = (a, b) ∨ (p ∈ l ∧ p.1 ≠ a) := by
  simp [ainsert, mem_aremove_iff]

theorem alookup_eq_none_iff {β : Type} (l : List (Nat × β)) (a : Nat) :
    alookup l a = none ↔ ∀ p ∈ l, p.1 ≠ a := by
  induction l with
  | nil => simp
  | cons p rest ih =>
    obtain ⟨k, v⟩ := p
    rw [alookup_cons]
    by_cases hka : k = a
    · subst hka; simp
    · simp [hka, ih]

theorem aremove_eq_of_none {β : Type} {l : List (Nat × β)} {a : Nat}
    (h : alookup l a = none) : aremove l a = l := by
  rw [alookup_eq_none_iff] at h
  simpa [aremove, List.filter_eq_self] using h

theorem mem_alookup {β : Type} {l : List (Nat × β)} {a : Nat} {b : β}
    (hnd : (l.map Prod.fst).Nodup) (h : (a, b) ∈ l) : alookup l a = some b := by
  induction l with
  | nil => simp at h
  | cons p rest ih =>
    obtain ⟨k, v⟩ := p
    simp only [List.map_cons, List.nodup_cons] at hnd
    rw [alookup_cons]
    rcases List.mem_cons.1 h with h1 | h1
    · rw [Prod.mk.injEq] at h1
      simp [h1.1, h1.2]
    · have hka : k ≠ a := by
        intro he
        subst he
        exact hnd.1 (List.mem_map.2 ⟨(k, b), h1, rfl⟩)
      simp [hka, ih hnd.2 h1]

theorem nodup_keys_aremove {β : Type} (l : List (Nat × β)) (a : Nat)
    (h : (l.map Prod.fst).Nodup) : ((aremove l a).map Prod.fst).Nodup := by
  have hsub : List.Sublist (aremove l a) l := List.filter_sublist l
  exact h.sublist (hsub.map Prod.fst)

theorem nodup_keys_ainsert {β : Type} (l : List (Nat × β)) (a : Nat) (b : β)
    (h : (l.map Prod.fst).Nodup) : ((ainsert l a b).map Prod.fst).Nodup := by
  simp only [ainsert, List.map_cons, List.nodup_cons]
  refine ⟨?_, nodup_keys_aremove l a h⟩
  intro hmem
  rcases List.mem_map.1 hmem with ⟨p, hp, hfst⟩
  exact ((mem_aremove_iff l a p).1 hp).2 hfst

/-- Removing a present key splits the mapped sum. -/
theorem sum_map_aremove {β : Type} (g : Nat × β → Nat) (l : List (Nat × β)) (a : Nat) (b : β)
    (hnd : (l.map Prod.fst).Nodup) (hmem : (a, b) ∈ l) :
    (l.map g).sum = ((aremove l a).map g).sum + g (a, b) := by
  induction l with
  | nil => simp at hmem
  | cons p rest ih =>
    obtain ⟨k, v⟩ := p
    simp only [List.map_cons, List.nodup_cons] at hnd
    rcases List.mem_cons.1 hmem with h1 | h1
    · have hk : k = a := by rw [Prod.ext_iff] at h1; exact h1.1.symm
      have hnone : alookup rest a = none := by
        rw [alookup_eq_none_iff]
        intro q hq he
        exact hnd.1 (List.mem_map.2 ⟨q, hq, by omega⟩)
      have hrm : aremove ((k, v) :: rest) a = rest := by
        rw [aremove_cons, if_pos hk, aremove_eq_of_none hnone]
      rw [hrm, h1]
      simp [Nat.add_comm]
    · have hka : k ≠ a := by
        intro he
        exact hnd.1 (List.mem_map.2 ⟨(a, b), h1, by omega⟩)
      rw [aremove_cons, if_neg hka]
      simp only [List.map_cons, List.sum_cons]
      rw [ih hnd.2 h1]
      omega

theorem getD_set_self (l : List Nat) (m v : Nat) (h : m < l.length) :
    (l.set m v).getD m 0 = v := by
  induction l generalizing m with
  | nil => simp at h
  | cons x rest ih =>
    cases m with
    | zero => simp [List.set]
    | succ m =>
      simp only [List.set, List.getD_cons_succ]
      exact ih m (by simpa using h)

theorem getD_set_ne (l : List Nat) (m v j : Nat) (h : m ≠ j) :
    (l.set m v).getD j 0 = l.getD j 0 := by
  induction l generalizing m j with
  | nil => simp
  | cons x rest ih =>
    cases m with
    | zero =>
      cases j with
      | zero => omega
      | succ j => simp [List.set]
    | succ m =>
      cases j with
      | zero => simp [List.set]
      | succ j =>
        simp only [List.set, List.getD_cons_succ]
        exact ih m j (by omega)

theorem getD_set (l : List Nat) (m v j : Nat) :
    (l.set m v).getD j 0 = if m = j ∧ m < l.length then v else l.getD j 0 := by
  by_cases h : m = j ∧ m < l.length
  · obtain ⟨rfl, h2⟩ := h
    rw [if_pos ⟨rfl, h2⟩]
    exact getD_set_self l m v h2
  · rw [if_neg h]
    by_cases he : m = j
    · subst he
      have h2 : ¬ m < l.length := fun hh => h ⟨rfl, hh⟩
      rw [List.set_eq_of_length_le (by omega)]
    · exact getD_set_ne l m v j he

theorem getD_append_or (l l' : List Nat) (j : Nat) :
    (l ++ l').getD j 0 = if j < l.length then l.getD j 0 else l'.getD (j - l.length) 0 := by
  by_cases h : j < l.length
  · rw [if_pos h]
    exact List.getD_append _ _ _ _ h
  · rw [if_neg h]
    exact List.getD_append_right _ _ _ _ (by omega)

theorem getD_singleton_append (l : List Nat) (v j : Nat) :
    (l ++ [v]).getD j 0 = if j = l.length then v else l.getD j 0 := by
  rw [getD_append_or]
  by_cases h : j < l.length
  · rw [if_pos h, if_neg (by omega : ¬ j = l.length)]
  · rw [if_neg h]
    by_cases he : j = l.length
    · rw [if_pos he]
      have h0 : j - l.length = 0 := by omega
      rw [h0]
      rfl
    · rw [if_neg he]
      have h1 : ([v] : List Nat).getD (j - l.length) 0 = 0 :=
        List.getD_eq_default _ _ (by simp only [List.length_singleton]; omega)
      rw [h1, List.getD_eq_default _ _ (by omega)]

theorem mem_range'_iff (m s n : Nat) : m ∈ List.range' s n ↔ s ≤ m ∧ m < s + n :=
  List.mem_range'_1

/-! ### Modular arithmetic and `childSum` lemmas -/

theorem U128MOD_pos : 0 < U128MOD := Nat.pos_pow_of_pos 128 (by omega)

theorem wadd_lt (a b : Nat) : wadd a b < U128MOD := Nat.mod_lt _ U128MOD_pos

theorem wsub_lt (a b : Nat) : wsub a b < U128MOD := Nat.mod_lt _ U128MOD_pos

theorem wadd_eq (a b : Nat) : wadd a b = (a + b) % U128MOD := rfl

theorem wsub_eq (a b : Nat) : wsub a b = (a + U128MOD - b) % U128MOD := rfl

/-- Subtracting `v` after adding it (mod `2^128`) gives back the original residue. -/
theorem wsub_cancel (x v : Nat) (hv : v < U128MOD) :
    wsub ((x + v) % U128MOD) v = x % U128MOD := by
  rw [wsub_eq]
  have h1 : (x + v) % U128MOD + U128MOD - v = (x + v) % U128MOD + (U128MOD - v) := by omega
  rw [h1, Nat.mod_add_mod]
  have h2 : x + v + (U128MOD - v) = x + U128MOD := by omega
  rw [h2, Nat.add_mod_right]

theorem childSum_congr {K : Nat} {nodes nodes' : List Nat} {i : Nat}
    (h : ∀ j, 1 ≤ j → j < 1 + K → nodes'.getD (K * i + j) 0 = nodes.getD (K * i + j) 0) :
    childSum K nodes' i = childSum K nodes i := by
  unfold childSum
  congr 1
  apply List.map_congr_left
  intro j hj
  rw [mem_range'_iff] at hj
  exact h j hj.1 hj.2

/-- `m` is a child slot of `i` exactly when `i` is the parent of `m`. -/
theorem child_slot_iff {K : Nat} (hK : 0 < K) {i m : Nat} (hm : 1 ≤ m) :
    (∃ j, 1 ≤ j ∧ j < 1 + K ∧ K * i + j = m) ↔ (m - 1) / K = i := by
  rw [nat_div_eq_iff hK]
  constructor
  · rintro ⟨j, h1, h2, rfl⟩
    omega
  · rintro ⟨h1, h2⟩
    exact ⟨m - K * i, by omega, by omega, by omega⟩

/-- Effect on `childSum i` of changing the array at a single position `m ≥ 1`:
if `i` is `m`'s parent the sum shifts by the value change, otherwise it is
unchanged. -/
theorem childSum_update {K : Nat} (hK : 0 < K) (nodes nodes' : List Nat) {m : Nat} (hm : 1 ≤ m)
    (hdiff : ∀ j, j ≠ m → nodes'.getD j 0 = nodes.getD j 0) (i : Nat) :
    ((m - 1) / K = i →
      childSum K nodes' i + nodes.getD m 0 = childSum K nodes i + nodes'.getD m 0)
    ∧ ((m - 1) / K ≠ i → childSum K nodes' i = childSum K nodes i) := by
  constructor
  · intro hslot
    obtain ⟨j0, hj1, hj2, hj3⟩ := (child_slot_iff hK hm).2 hslot
    have hj0mem : j0 ∈ List.range' 1 K := (mem_range'_iff _ _ _).2 ⟨hj1, hj2⟩
    obtain ⟨A, B, hAB⟩ := List.append_of_mem hj0mem
    have hnd : (List.range' 1 K).Nodup := List.nodup_range' 1 K
    rw [hAB] at hnd
    have hnd' := List.nodup_append.1 hnd
    have hj0A : j0 ∉ A := fun hjA => hnd'.2.2 hjA (List.mem_cons_self _ _)
    have hj0B : j0 ∉ B := (List.nodup_cons.1 hnd'.2.1).1
    unfold childSum
    rw [hAB]
    simp only [List.map_append, List.map_cons, List.sum_append, List.sum_cons]
    have hA : A.map (fun j => nodes'.getD (K * i + j) 0)
        = A.map (fun j => nodes.getD (K * i + j) 0) := by
      apply List.map_congr_left
      intro j hj
      apply hdiff
      intro he
      have hjj : j = j0 := by omega
      exact hj0A (hjj ▸ hj)
    have hB : B.map (fun j => nodes'.getD (K * i + j) 0)
        = B.map (fun j => nodes.getD (K * i + j) 0) := by
      apply List.map_congr_left
      intro j hj
      apply hdiff
      intro he
      have hjj : j = j0 := by omega
      exact hj0B (hjj ▸ hj)
    rw [hA, hB, hj3]
    omega
  · intro hns
    apply childSum_congr
    intro j h1 h2
    apply hdiff
    intro he
    exact hns ((child_slot_iff hK hm).1 ⟨j, h1, h2, he⟩)

/-- Writing at the root (index 0) never changes any `childSum`. -/
theorem childSum_set_zero (K : Nat) (nodes : List Nat) (v i : Nat) :
    childSum K (nodes.set 0 v) i = childSum K nodes i := by
  apply childSum_congr
  intro j h1 h2
  exact getD_set_ne _ _ _ _ (by omega)

/-! ### `chainList` lemmas -/

theorem chainList_zero (K : Nat) : chainList K 0 = [] := by
  rw [chainList]
  simp

theorem chainList_pos (K : Nat) {p : Nat} (hp : p ≠ 0) :
    chainList K p = (p - 1) / K :: chainList K ((p - 1) / K) := by
  rw [chainList]
  simp [hp]

/-- Every element of the ancestor chain of `p` has its first child slot at or
below `p`; in particular it is an internal node whenever `p` is in bounds. -/
theorem mem_chainList_child_le {K : Nat} (p : Nat) :
    ∀ a ∈ chainList K p, K * a + 1 ≤ p := by
  induction p using Nat.strong_induction_on with
  | _ p ih =>
    intro a ha
    by_cases hp : p = 0
    · subst hp
      rw [chainList_zero] at ha
      simp at ha
    · rw [chainList_pos K hp] at ha
      rcases List.mem_cons.1 ha with h | h
      · subst h
        have h1 : (p - 1) / K * K ≤ p - 1 := Nat.div_mul_le_self _ _
        rw [Nat.mul_comm]
        omega
      · have hq : (p - 1) / K < p := Nat.lt_of_le_of_lt (Nat.div_le_self _ _) (by omega)
        have := ih _ hq a h
        omega

theorem mem_chainList_lt {K : Nat} (hK : 0 < K) (p : Nat) :
    ∀ a ∈ chainList K p, a < p := by
  intro a ha
  have h1 := mem_chainList_child_le p a ha
  have h2 : a ≤ K * a := Nat.le_mul_of_pos_left a hK
  omega

theorem zero_mem_chainList {K : Nat} : ∀ p, p ≠ 0 → 0 ∈ chainList K p := by
  intro p
  induction p using Nat.strong_induction_on with
  | _ p ih =>
    intro hp
    rw [chainList_pos K hp]
    by_cases hq : (p - 1) / K = 0
    · rw [hq]
      exact List.mem_cons_self _ _
    · exact List.mem_cons_of_mem _
        (ih _ (Nat.lt_of_le_of_lt (Nat.div_le_self _ _) (by omega)) hq)

/-! ### `updateParentsLoop` unfolding and specification -/

theorem updateParentsLoop_base (K : Nat) (pom : Bool) (v : Nat) (nodes : List Nat) :
    updateParentsLoop K pom v 0 nodes = some nodes := by
  rw [updateParentsLoop]
  simp

theorem updateParentsLoop_step_add {K p : Nat} (v : Nat) (nodes : List Nat)
    (hp : p ≠ 0) (hK : K ≠ 0) (hq : (p - 1) / K < nodes.length) :
    updateParentsLoop K true v p nodes =
      updateParentsLoop K true v ((p - 1) / K)
        (nodes.set ((p - 1) / K) (wadd (nodes.getD ((p - 1) / K) 0) v)) := by
  conv_lhs => rw [updateParentsLoop]
  simp [hp, hK, hq]

theorem updateParentsLoop_step_sub {K p : Nat} (v : Nat) (nodes : List Nat)
    (hp : p ≠ 0) (hK : K ≠ 0) (hq : (p - 1) / K < nodes.length) :
    updateParentsLoop K false v p nodes =
      updateParentsLoop K false v ((p - 1) / K)
        (nodes.set ((p - 1) / K) (wsub (nodes.getD ((p - 1) / K) 0) v)) := by
  conv_lhs => rw [updateParentsLoop]
  simp [hp, hK, hq]

theorem wsub_add_cancel (a v : Nat) (hv : v < U128MOD) :
    (wsub a v + v) % U128MOD = a % U128MOD := by
  rw [wsub_eq, Nat.mod_add_mod]
  have h : a + U128MOD - v + v = a + U128MOD := by omega
  rw [h, Nat.add_mod_right]

/-- Main specification of the `update_parents` loop with the adding sign:
starting from a state that is sum-consistent (mod `2^128`) everywhere except
the immediate parent of `p`, which is off by exactly `+v`, the loop succeeds
and restores sum-consistency everywhere, changing only the ancestors of `p`
and adding `v` (wrapping) to the root. -/
theorem updateParentsLoop_spec_add {K : Nat} (hK : 0 < K) {v : Nat} (_hv : v < U128MOD) :
    ∀ p : Nat, ∀ nodes : List Nat, 1 ≤ p → p < nodes.length →
      (∀ x ∈ nodes, x < U128MOD) →
      (∀ i, K * i + 1 < nodes.length → i ≠ (p - 1) / K →
          nodes.getD i 0 = childSum K nodes i % U128MOD) →
      ((nodes.getD ((p - 1) / K) 0 + v) % U128MOD
        = childSum K nodes ((p - 1) / K) % U128MOD) →
      ∃ nodes', updateParentsLoop K true v p nodes = some nodes' ∧
        nodes'.length = nodes.length ∧
        (∀ x ∈ nodes', x < U128MOD) ∧
        (∀ i, K * i + 1 < nodes'.length → nodes'.getD i 0 = childSum K nodes' i % U128MOD) ∧
        (∀ j, j ∉ chainList K p → nodes'.getD j 0 = nodes.getD j 0) ∧
        nodes'.getD 0 0 = wadd (nodes.getD 0 0) v := by
  intro p
  induction p using Nat.strong_induction_on with
  | _ p ih =>
    intro nodes hp hplen hvals hcons hoff
    have hpne : p ≠ 0 := by omega
    have hKne : K ≠ 0 := by omega
    obtain ⟨q, hqdef⟩ : ∃ t, (p - 1) / K = t := ⟨_, rfl⟩
    rw [hqdef] at hcons hoff
    have hqp : q < p := hqdef ▸ Nat.lt_of_le_of_lt (Nat.div_le_self _ _) (by omega)
    have hqlen : q < nodes.length := lt_trans hqp hplen
    have hstep : updateParentsLoop K true v p nodes =
        updateParentsLoop K true v q (nodes.set q (wadd (nodes.getD q 0) v)) := by
      have h := updateParentsLoop_step_add v nodes hpne hKne (by rw [hqdef]; exact hqlen)
      rw [hqdef] at h
      exact h
    have hchain : chainList K p = q :: chainList K q := by
      rw [chainList_pos K hpne, hqdef]
    have hdiff : ∀ j, j ≠ q →
        (nodes.set q (wadd (nodes.getD q 0) v)).getD j 0 = nodes.getD j 0 := by
      intro j hj
      exact getD_set_ne _ _ _ _ (Ne.symm hj)
    by_cases hq0 : q = 0
    · subst hq0
      refine ⟨nodes.set 0 (wadd (nodes.getD 0 0) v), ?_, by simp, ?_, ?_, ?_, ?_⟩
      · rw [hstep]
        exact updateParentsLoop_base _ _ _ _
      · intro x hx
        rcases List.mem_or_eq_of_mem_set hx with h | h
        · exact hvals x h
        · subst h
          exact wadd_lt _ _
      · intro i hi
        rw [childSum_set_zero]
        have hlen' : K * i + 1 < nodes.length := by simpa using hi
        by_cases hi0 : i = 0
        · subst hi0
          rw [getD_set_self _ _ _ (by omega), wadd_eq]
          exact hoff
        · rw [getD_set_ne _ _ _ _ (Ne.symm hi0)]
          exact hcons i hlen' hi0
      · intro j hj
        rw [hchain, chainList_zero] at hj
        have hj0 : j ≠ 0 := by simpa using hj
        exact getD_set_ne _ _ _ _ (Ne.symm hj0)
      · exact getD_set_self _ _ _ (by omega)
    · -- inductive case: the parent q is itself ≥ 1
      have hq1 : 1 ≤ q := Nat.pos_of_ne_zero hq0
      obtain ⟨r, hrdef⟩ : ∃ t, (q - 1) / K = t := ⟨_, rfl⟩
      have hrq : r < q := hrdef ▸ Nat.lt_of_le_of_lt (Nat.div_le_self _ _) (by omega)
      have hrK : r * K ≤ q - 1 := hrdef ▸ Nat.div_mul_le_self _ _
      have hr_int : K * r + 1 ≤ q := by
        rw [Nat.mul_comm]
        omega
      have hr_len : K * r + 1 < nodes.length := by omega
      have hrne : r ≠ q := by omega
      have hcsu := childSum_update hK nodes
        (nodes.set q (wadd (nodes.getD q 0) v)) hq1 hdiff
      rw [hrdef] at hcsu
      have hsetq : (nodes.set q (wadd (nodes.getD q 0) v)).getD q 0
          = wadd (nodes.getD q 0) v := getD_set_self _ _ _ hqlen
      have hcons' : ∀ i, K * i + 1 < (nodes.set q (wadd (nodes.getD q 0) v)).length →
          i ≠ r → (nodes.set q (wadd (nodes.getD q 0) v)).getD i 0
            = childSum K (nodes.set q (wadd (nodes.getD q 0) v)) i % U128MOD := by
        intro i hilen hir
        have hilen0 : K * i + 1 < nodes.length := by simpa using hilen
        by_cases hiq : i = q
        · subst hiq
          rw [hsetq, (hcsu _).2 hrne, wadd_eq]
          exact hoff
        · rw [getD_set_ne _ _ _ _ (Ne.symm hiq), (hcsu _).2 (by omega)]
          exact hcons i hilen0 hiq
      have hoff' : ((nodes.set q (wadd (nodes.getD q 0) v)).getD r 0 + v) % U128MOD
          = childSum K (nodes.set q (wadd (nodes.getD q 0) v)) r % U128MOD := by
        have hstar := (hcsu r).1 rfl
        rw [hsetq] at hstar
        have hCr : nodes.getD r 0 = childSum K nodes r % U128MOD := hcons r hr_len hrne
        have h7 : (childSum K (nodes.set q (wadd (nodes.getD q 0) v)) r
              + nodes.getD q 0) % U128MOD
            = (childSum K nodes r + v + nodes.getD q 0) % U128MOD := by
          rw [hstar, wadd_eq, Nat.add_mod_mod]
          have he : childSum K nodes r + (nodes.getD q 0 + v)
              = childSum K nodes r + v + nodes.getD q 0 := by omega
          rw [he]
        have h8 := Nat.ModEq.add_right_cancel' (nodes.getD q 0) h7
        rw [hdiff _ hrne, hCr, Nat.mod_add_mod]
        exact h8.symm
      obtain ⟨nodes', h1, h2, h3, h4, h5, h6⟩ :=
        ih q hqp (nodes.set q (wadd (nodes.getD q 0) v)) hq1 (by simpa using hqlen)
          (by
            intro x hx
            rcases List.mem_or_eq_of_mem_set hx with h | h
            · exact hvals x h
            · subst h
              exact wadd_lt _ _)
          (by rw [hrdef]; exact hcons')
          (by rw [hrdef]; exact hoff')
      refine ⟨nodes', ?_, by simpa using h2, h3, h4, ?_, ?_⟩
      · rw [hstep]
        exact h1
      · intro j hj
        rw [hchain] at hj
        have hjq : j ≠ q := fun he => hj (he ▸ List.mem_cons_self _ _)
        have hjc : j ∉ chainList K q := fun hc => hj (List.mem_cons_of_mem _ hc)
        rw [h5 j hjc]
        exact hdiff j hjq
      · rw [h6, hdiff 0 (by omega)]

/-- Specification of the `update_parents` loop with the subtracting sign
(wrapping subtraction): the mirror image of `updateParentsLoop_spec_add`. -/
theorem updateParentsLoop_spec_sub {K : Nat} (hK : 0 < K) {v : Nat} (hv : v < U128MOD) :
    ∀ p : Nat, ∀ nodes : List Nat, 1 ≤ p → p < nodes.length →
      (∀ x ∈ nodes, x < U128MOD) →
      (∀ i, K * i + 1 < nodes.length → i ≠ (p - 1) / K →
          nodes.getD i 0 = childSum K nodes i % U128MOD) →
      (nodes.getD ((p - 1) / K) 0
        = (childSum K nodes ((p - 1) / K) + v) % U128MOD) →
      ∃ nodes', updateParentsLoop K false v p nodes = some nodes' ∧
        nodes'.length = nodes.length ∧
        (∀ x ∈ nodes', x < U128MOD) ∧
        (∀ i, K * i + 1 < nodes'.length → nodes'.getD i 0 = childSum K nodes' i % U128MOD) ∧
        (∀ j, j ∉ chainList K p → nodes'.getD j 0 = nodes.getD j 0) ∧
        nodes'.getD 0 0 = wsub (nodes.getD 0 0) v := by
  intro p
  induction p using Nat.strong_induction_on with
  | _ p ih =>
    intro nodes hp hplen hvals hcons hoff
    have hpne : p ≠ 0 := by omega
    have hKne : K ≠ 0 := by omega
    obtain ⟨q, hqdef⟩ : ∃ t, (p - 1) / K = t := ⟨_, rfl⟩
    rw [hqdef] at hcons hoff
    have hqp : q < p := hqdef ▸ Nat.lt_of_le_of_lt (Nat.div_le_self _ _) (by omega)
    have hqlen : q < nodes.length := lt_trans hqp hplen
    have hstep : updateParentsLoop K false v p nodes =
        updateParentsLoop K false v q (nodes.set q (wsub (nodes.getD q 0) v)) := by
      have h := updateParentsLoop_step_sub v nodes hpne hKne (by rw [hqdef]; exact hqlen)
      rw [hqdef] at h
      exact h
    have hchain : chainList K p = q :: chainList K q := by
      rw [chainList_pos K hpne, hqdef]
    have hdiff : ∀ j, j ≠ q →
        (nodes.set q (wsub (nodes.getD q 0) v)).getD j 0 = nodes.getD j 0 := by
      intro j hj
      exact getD_set_ne _ _ _ _ (Ne.symm hj)
    by_cases hq0 : q = 0
    · subst hq0
      refine ⟨nodes.set 0 (wsub (nodes.getD 0 0) v), ?_, by simp, ?_, ?_, ?_, ?_⟩
      · rw [hstep]
        exact updateParentsLoop_base _ _ _ _
      · intro x hx
        rcases List.mem_or_eq_of_mem_set hx with h | h
        · exact hvals x h
        · subst h
          exact wsub_lt _ _
      · intro i hi
        rw [childSum_set_zero]
        have hlen' : K * i + 1 < nodes.length := by simpa using hi
        by_cases hi0 : i = 0
        · subst hi0
          rw [getD_set_self _ _ _ (by omega), hoff]
          exact wsub_cancel _ _ hv
        · rw [getD_set_ne _ _ _ _ (Ne.symm hi0)]
          exact hcons i hlen' hi0
      · intro j hj
        rw [hchain, chainList_zero] at hj
        have hj0 : j ≠ 0 := by simpa using hj
        exact getD_set_ne _ _ _ _ (Ne.symm hj0)
      · exact getD_set_self _ _ _ (by omega)
    · have hq1 : 1 ≤ q := Nat.pos_of_ne_zero hq0
      obtain ⟨r, hrdef⟩ : ∃ t, (q - 1) / K = t := ⟨_, rfl⟩
      have hrq : r < q := hrdef ▸ Nat.lt_of_le_of_lt (Nat.div_le_self _ _) (by omega)
      have hrK : r * K ≤ q - 1 := hrdef ▸ Nat.div_mul_le_self _ _
      have hr_int : K * r + 1 ≤ q := by
        rw [Nat.mul_comm]
        omega
      have hr_len : K * r + 1 < nodes.length := by omega
      have hrne : r ≠ q := by omega
      have hcsu := childSum_update hK nodes
        (nodes.set q (wsub (nodes.getD q 0) v)) hq1 hdiff
      rw [hrdef] at hcsu
      have hsetq : (nodes.set q (wsub (nodes.getD q 0) v)).getD q 0
          = wsub (nodes.getD q 0) v := getD_set_self _ _ _ hqlen
      have hcons' : ∀ i, K * i + 1 < (nodes.set q (wsub (nodes.getD q 0) v)).length →
          i ≠ r → (nodes.set q (wsub (nodes.getD q 0) v)).getD i 0
            = childSum K (nodes.set q (wsub (nodes.getD q 0) v)) i % U128MOD := by
        intro i hilen hir
        have hilen0 : K * i + 1 < nodes.length := by simpa using hilen
        by_cases hiq : i = q
        · subst hiq
          rw [hsetq, (hcsu _).2 hrne, hoff]
          exact wsub_cancel _ _ hv
        · rw [getD_set_ne _ _ _ _ (Ne.symm hiq), (hcsu _).2 (by omega)]
          exact hcons i hilen0 hiq
      have hoff' : (nodes.set q (wsub (nodes.getD q 0) v)).getD r 0
          = (childSum K (nodes.set q (wsub (nodes.getD q 0) v)) r + v) % U128MOD := by
        have hstar := (hcsu r).1 rfl
        rw [hsetq] at hstar
        have hCr : nodes.getD r 0 = childSum K nodes r % U128MOD := hcons r hr_len hrne
        have h7 : (childSum K (nodes.set q (wsub (nodes.getD q 0) v)) r + v
              + nodes.getD q 0) % U128MOD
            = (childSum K nodes r + nodes.getD q 0) % U128MOD := by
          have he1 : childSum K (nodes.set q (wsub (nodes.getD q 0) v)) r + v
              + nodes.getD q 0
              = childSum K (nodes.set q (wsub (nodes.getD q 0) v)) r
                + nodes.getD q 0 + v := by omega
          rw [he1, hstar]
          have he2 : childSum K nodes r + wsub (nodes.getD q 0) v + v
              = childSum K nodes r + (wsub (nodes.getD q 0) v + v) := by omega
          rw [he2, ← Nat.add_mod_mod, wsub_add_cancel _ _ hv, Nat.add_mod_mod]
        have h8 := Nat.ModEq.add_right_cancel' (nodes.getD q 0) h7
        rw [hdiff _ hrne, hCr]
        exact h8.symm
      obtain ⟨nodes', h1, h2, h3, h4, h5, h6⟩ :=
        ih q hqp (nodes.set q (wsub (nodes.getD q 0) v)) hq1 (by simpa using hqlen)
          (by
            intro x hx
            rcases List.mem_or_eq_of_mem_set hx with h | h
            · exact hvals x h
            · subst h
              exact wsub_lt _ _)
          (by rw [hrdef]; exact hcons')
          (by rw [hrdef]; exact hoff')
      refine ⟨nodes', ?_, by simpa using h2, h3, h4, ?_, ?_⟩
      · rw [hstep]
        exact h1
      · intro j hj
        rw [hchain] at hj
        have hjq : j ≠ q := fun he => hj (he ▸ List.mem_cons_self _ _)
        have hjc : j ∉ chainList K q := fun hc => hj (List.mem_cons_of_mem _ hc)
        rw [h5 j hjc]
        exact hdiff j hjq
      · rw [h6, hdiff 0 (by omega)]

/-! ### Registry algebra and case equations for `set` -/

theorem aremove_aremove_self {β : Type} (l : List (Nat × β)) (a : Nat) :
    aremove (aremove l a) a = aremove l a := by
  simp only [aremove, List.filter_filter]
  congr 1
  funext p
  by_cases h : p.1 = a <;> simp [h]

theorem aremove_ainsert_self {β : Type} (l : List (Nat × β)) (a : Nat) (b : β) :
    aremove (ainsert l a b) a = aremove l a := by
  unfold ainsert
  rw [aremove_cons, if_pos rfl, aremove_aremove_self]

theorem ainsert_ainsert {β : Type} (l : List (Nat × β)) (a : Nat) (b c : β) :
    ainsert (ainsert l a b) a c = ainsert l a c := by
  unfold ainsert
  rw [aremove_cons, if_pos rfl, aremove_aremove_self]

theorem update_parents_ainsert_eq (trees : SortitionSumTrees) (key : TypeKey)
    (tree : SortitionSumTree) (ti : Nat) (pom : Bool) (v : Nat) :
    update_parents (ainsert trees key tree) key ti pom v =
      match updateParentsLoop tree.K pom v ti tree.nodes with
      | none => none
      | some nodes' => some (ainsert trees key { tree with nodes := nodes' }) := by
  unfold update_parents
  rw [alookup_ainsert_self]
  dsimp only
  cases hu : updateParentsLoop tree.K pom v ti tree.nodes with
  | none => rfl
  | some nodes' =>
    dsimp only
    rw [ainsert_ainsert]

theorem bind_and_update_eq (trees : SortitionSumTrees) (key : TypeKey)
    (tree : SortitionSumTree) (ti v : Nat) (id : TypeAddress) :
    bind_and_update trees key tree ti v id =
      Option.map (fun ns => ainsert trees key
          { tree with
            nodes := ns,
            ids_to_node_indexes := ainsert tree.ids_to_node_indexes id ti,
            node_indexes_to_ids := ainsert tree.node_indexes_to_ids ti id })
        (updateParentsLoop tree.K true v ti tree.nodes) := by
  unfold bind_and_update
  rw [update_parents_ainsert_eq]
  dsimp only
  cases hu : updateParentsLoop tree.K true v ti tree.nodes with
  | none => rfl
  | some ns => rfl

/-- `set` on an unknown key is a no-op. -/
theorem set_unknown_eq (trees : SortitionSumTrees) (key : TypeKey) (v : Nat)
    (id : TypeAddress) (hkey : alookup trees key = none) :
    SortitionSumTrees.set trees key v id = some trees := by
  unfold SortitionSumTrees.set
  rw [hkey]

/-- `set` with value 0 on a bound identifier: the removal path. -/
theorem set_remove_eq {trees : SortitionSumTrees} {key : TypeKey} {id : TypeAddress}
    {tree : SortitionSumTree} {ti : Nat}
    (hkey : alookup trees key = some tree)
    (hid : alookup tree.ids_to_node_indexes id = some ti)
    (hlt : ti < tree.nodes.length) :
    SortitionSumTrees.set trees key 0 id =
      update_parents (ainsert trees key
        { tree with
          nodes := tree.nodes.set ti 0,
          stack := tree.stack ++ [ti],
          node_indexes_to_ids := aremove tree.node_indexes_to_ids ti,
          ids_to_node_indexes := aremove tree.ids_to_node_indexes id })
        key ti false (tree.nodes.getD ti 0) := by
  unfold SortitionSumTrees.set
  rw [hkey]
  dsimp only
  rw [hid]
  dsimp only
  rw [if_pos rfl, if_pos hlt]

/-- `set` with the current value on a bound identifier: a no-op. -/
theorem set_noop_eq {trees : SortitionSumTrees} {key : TypeKey} {v : Nat} {id : TypeAddress}
    {tree : SortitionSumTree} {ti : Nat}
    (hkey : alookup trees key = some tree)
    (hid : alookup tree.ids_to_node_indexes id = some ti)
    (hv : v ≠ 0) (hlt : ti < tree.nodes.length)
    (heq : v = tree.nodes.getD ti 0) :
    SortitionSumTrees.set trees key v id = some trees := by
  unfold SortitionSumTrees.set
  rw [hkey]
  dsimp only
  rw [hid]
  dsimp only
  rw [if_neg hv, if_pos hlt, if_pos heq]

/-- `set` with a new nonzero value on a bound identifier: the update path. -/
theorem set_update_eq {trees : SortitionSumTrees} {key : TypeKey} {v : Nat} {id : TypeAddress}
    {tree : SortitionSumTree} {ti : Nat}
    (hkey : alookup trees key = some tree)
    (hid : alookup tree.ids_to_node_indexes id = some ti)
    (hv : v ≠ 0) (hlt : ti < tree.nodes.length)
    (hne : v ≠ tree.nodes.getD ti 0) :
    SortitionSumTrees.set trees key v id =
      update_parents (ainsert trees key { tree with nodes := tree.nodes.set ti v })
        key ti (decide (tree.nodes.getD ti 0 ≤ v))
        (if tree.nodes.getD ti 0 ≤ v then v - tree.nodes.getD ti 0
         else tree.nodes.getD ti 0 - v) := by
  unfold SortitionSumTrees.set
  rw [hkey]
  dsimp only
  rw [hid]
  dsimp only
  rw [if_neg hv, if_pos hlt, if_neg hne]

/-- `set` with value 0 on an unbound identifier: a no-op. -/
theorem set_absent_zero_eq {trees : SortitionSumTrees} {key : TypeKey} {id : TypeAddress}
    {tree : SortitionSumTree}
    (hkey : alookup trees key = some tree)
    (hid : alookup tree.ids_to_node_indexes id = none) :
    SortitionSumTrees.set trees key 0 id = some trees := by
  unfold SortitionSumTrees.set
  rw [hkey]
  dsimp only
  rw [hid]
  dsimp only
  rw [if_pos rfl]

/-- Insertion of the very first identifier (append at index 1). -/
theorem set_insert_first_eq {trees : SortitionSumTrees} {key : TypeKey} {v : Nat}
    {id : TypeAddress} {tree : SortitionSumTree}
    (hkey : alookup trees key = some tree)
    (hid : alookup tree.ids_to_node_indexes id = none)
    (hv : v ≠ 0) (hstk : tree.stack.length = 0)
    (hlen : tree.nodes.length = 1) :
    SortitionSumTrees.set trees key v id =
      bind_and_update trees key { tree with nodes := tree.nodes ++ [v] }
        tree.nodes.length v id := by
  unfold SortitionSumTrees.set
  rw [hkey]
  dsimp only
  rw [hid]
  dsimp only
  rw [if_neg hv, if_pos hstk, if_pos hlen]

/-- Insertion by appending a fresh node that is not a first child slot. -/
theorem set_insert_append_eq {trees : SortitionSumTrees} {key : TypeKey} {v : Nat}
    {id : TypeAddress} {tree : SortitionSumTree}
    (hkey : alookup trees key = some tree)
    (hid : alookup tree.ids_to_node_indexes id = none)
    (hv : v ≠ 0) (hstk : tree.stack.length = 0)
    (hlen : tree.nodes.length ≠ 1) (hK : tree.K ≠ 0)
    (hmod : (tree.nodes.length - 1) % tree.K ≠ 0) :
    SortitionSumTrees.set trees key v id =
      bind_and_update trees key { tree with nodes := tree.nodes ++ [v] }
        tree.nodes.length v id := by
  unfold SortitionSumTrees.set
  rw [hkey]
  dsimp only
  rw [hid]
  dsimp only
  rw [if_neg hv, if_pos hstk, if_neg hlen, if_neg hK, if_neg hmod]

/-- Insertion by appending a fresh node at a first child slot: the
move-the-parent-down path. -/
theorem set_insert_move_eq {trees : SortitionSumTrees} {key : TypeKey} {v : Nat}
    {id parent_id : TypeAddress} {tree : SortitionSumTree}
    (hkey : alookup trees key = some tree)
    (hid : alookup tree.ids_to_node_indexes id = none)
    (hv : v ≠ 0) (hstk : tree.stack.length = 0)
    (hlen : tree.nodes.length ≠ 1) (hK : tree.K ≠ 0)
    (hmod : (tree.nodes.length - 1) % tree.K = 0)
    (hpid : alookup tree.node_indexes_to_ids (tree.nodes.length / tree.K) = some parent_id)
    (hplt : tree.nodes.length / tree.K < (tree.nodes ++ [v]).length) :
    SortitionSumTrees.set trees key v id =
      bind_and_update trees key
        { tree with
          nodes := (tree.nodes ++ [v]) ++
            [(tree.nodes ++ [v]).getD (tree.nodes.length / tree.K) 0],
          node_indexes_to_ids :=
            ainsert (aremove tree.node_indexes_to_ids (tree.nodes.length / tree.K))
              (tree.nodes.length + 1) parent_id,
          ids_to_node_indexes :=
            ainsert tree.ids_to_node_indexes parent_id (tree.nodes.length + 1) }
        tree.nodes.length v id := by
  unfold SortitionSumTrees.set
  rw [hkey]
  dsimp only
  rw [hid]
  dsimp only
  rw [if_neg hv, if_pos hstk, if_neg hlen, if_neg hK, if_pos hmod, hpid]
  dsimp only
  rw [if_pos hplt]

/-- Insertion reusing the top of the free-list stack. -/
theorem set_insert_reuse_eq {trees : SortitionSumTrees} {key : TypeKey} {v : Nat}
    {id : TypeAddress} {tree : SortitionSumTree} {ti : Nat}
    (hkey : alookup trees key = some tree)
    (hid : alookup tree.ids_to_node_indexes id = none)
    (hv : v ≠ 0) (hstk : tree.stack.length ≠ 0)
    (hlast : tree.stack.getLast? = some ti)
    (hlt : ti < tree.nodes.length) :
    SortitionSumTrees.set trees key v id =
      bind_and_update trees key
        { tree with stack := tree.stack.dropLast, nodes := tree.nodes.set ti v }
        ti v id := by
  unfold SortitionSumTrees.set
  rw [hkey]
  dsimp only
  rw [hid]
  dsimp only
  rw [if_neg hv, if_neg hstk, hlast]
  dsimp only
  rw [if_pos hlt]

/-! ### Invariant preservation -/

theorem getD_mem_of_lt (l : List Nat) (n : Nat) (h : n < l.length) : l.getD n 0 ∈ l := by
  induction l generalizing n with
  | nil => simp at h
  | cons x rest ih =>
    cases n with
    | zero => simp
    | succ n =>
      simp only [List.getD_cons_succ]
      exact List.mem_cons_of_mem _ (ih n (by simpa using h))

/-- A leaf (no children inside the array) is never on the ancestor chain of an
in-bounds index. -/
theorem leaf_not_mem_chain {K : Nat} {p j len : Nat} (hplen : p < len)
    (hleaf : len ≤ K * j + 1) : j ∉ chainList K p := by
  intro hmem
  have h := mem_chainList_child_le p j hmem
  omega

theorem self_not_mem_chain {K : Nat} (hK : 0 < K) (p : Nat) : p ∉ chainList K p :=
  fun h => absurd (mem_chainList_lt hK p p h) (lt_irrefl p)

/-- A freshly created tree satisfies the invariant. -/
theorem TreeInv_create {k : Nat} (hk : 2 ≤ k) :
    TreeInv { SortitionSumTree.new k with nodes := [0] } := by
  refine ⟨hk, by simp, ?_, ?_, ?_, ?_, ?_, ?_, ?_, ?_, ?_, ?_, ?_, ?_⟩
  · intro x hx
    simp only [SortitionSumTree.new] at hx
    have : x = 0 := by simpa using hx
    subst this
    exact U128MOD_pos
  · intro p hp
    simp [SortitionSumTree.new] at hp
  · intro p hp
    simp [SortitionSumTree.new] at hp
  · simp [SortitionSumTree.new]
  · simp [SortitionSumTree.new]
  · intro p hp
    simp [SortitionSumTree.new] at hp
  · intro m h1 h2 h3
    simp only [SortitionSumTree.new, List.length_singleton] at h2
    omega
  · intro m hm
    simp [SortitionSumTree.new] at hm
  · simp [SortitionSumTree.new]
  · intro h
    rfl
  · intro i hi
    simp only [SortitionSumTree.new, List.length_singleton] at hi
    omega
  · simp [SortitionSumTree.new, activeSum]

/-- Removal (`set` to 0 of a bound identifier): succeeds, produces the expected
tree, and preserves the invariant. -/
theorem set_remove_spec {trees : SortitionSumTrees} {key : TypeKey} {id : TypeAddress}
    {tree : SortitionSumTree} {n : Nat}
    (hkey : alookup trees key = some tree) (hinv : TreeInv tree)
    (hid : alookup tree.ids_to_node_indexes id = some n) :
    ∃ nodes',
      SortitionSumTrees.set trees key 0 id = some (ainsert trees key
        { tree with
          nodes := nodes',
          stack := tree.stack ++ [n],
          node_indexes_to_ids := aremove tree.node_indexes_to_ids n,
          ids_to_node_indexes := aremove tree.ids_to_node_indexes id }) ∧
      TreeInv { tree with
          nodes := nodes',
          stack := tree.stack ++ [n],
          node_indexes_to_ids := aremove tree.node_indexes_to_ids n,
          ids_to_node_indexes := aremove tree.ids_to_node_indexes id } ∧
      nodes'.length = tree.nodes.length ∧
      nodes'.getD n 0 = 0 := by
  have hK2 := hinv.hK
  have hKpos : 0 < tree.K := by omega
  have hmem := alookup_mem hid
  obtain ⟨hn1, hnlen, hnleaf, hnval⟩ := hinv.hrange _ hmem
  dsimp only at hn1 hnlen hnleaf hnval
  have hidx : alookup tree.node_indexes_to_ids n = some id := hinv.hbij1 _ hmem
  have hnstack : n ∉ tree.stack := by
    intro hn
    have h := (hinv.hstack n hn).2.2.2.2
    rw [h] at hidx
    exact Option.noConfusion hidx
  have hwlt : tree.nodes.getD n 0 < U128MOD :=
    hinv.hvals _ (getD_mem_of_lt _ _ hnlen)
  have hdiff : ∀ j, j ≠ n →
      (tree.nodes.set n 0).getD j 0 = tree.nodes.getD j 0 := by
    intro j hj
    exact getD_set_ne _ _ _ _ (Ne.symm hj)
  have hcsu := childSum_update hKpos tree.nodes (tree.nodes.set n 0) hn1 hdiff
  have hsetn : (tree.nodes.set n 0).getD n 0 = 0 := getD_set_self _ _ _ hnlen
  obtain ⟨q, hq⟩ : ∃ t, (n - 1) / tree.K = t := ⟨_, rfl⟩
  have hqn : q < n := hq ▸ Nat.lt_of_le_of_lt (Nat.div_le_self _ _) (by omega)
  have hqK : q * tree.K ≤ n - 1 := hq ▸ Nat.div_mul_le_self _ _
  have hq_int : tree.K * q + 1 ≤ n := by
    rw [Nat.mul_comm]
    omega
  have hcons1 : ∀ i, tree.K * i + 1 < (tree.nodes.set n 0).length → i ≠ (n - 1) / tree.K →
      (tree.nodes.set n 0).getD i 0 = childSum tree.K (tree.nodes.set n 0) i % U128MOD := by
    intro i hi hine
    rw [hq] at hine
    have hi0 : tree.K * i + 1 < tree.nodes.length := by simpa using hi
    have hin : i ≠ n := by
      intro he
      subst he
      omega
    rw [getD_set_ne _ _ _ _ (Ne.symm hin), (hcsu i).2 (by rw [hq]; exact Ne.symm hine)]
    exact hinv.hsum i hi0
  have hoff1 : (tree.nodes.set n 0).getD ((n - 1) / tree.K) 0
      = (childSum tree.K (tree.nodes.set n 0) ((n - 1) / tree.K)
          + tree.nodes.getD n 0) % U128MOD := by
    rw [hq]
    have hstar := (hcsu q).1 hq
    rw [hsetn] at hstar
    have hqne : q ≠ n := by omega
    rw [hdiff q hqne]
    have heq : childSum tree.K (tree.nodes.set n 0) q + tree.nodes.getD n 0
        = childSum tree.K tree.nodes q := by omega
    rw [heq]
    exact hinv.hsum q (by omega)
  obtain ⟨nodes', hU1, hU2, hU3, hU4, hU5, hU6⟩ :=
    updateParentsLoop_spec_sub hKpos hwlt n (tree.nodes.set n 0) hn1
      (by simpa using hnlen)
      (by
        intro x hx
        rcases List.mem_or_eq_of_mem_set hx with h | h
        · exact hinv.hvals x h
        · subst h
          exact U128MOD_pos)
      hcons1 hoff1
  have hlen' : nodes'.length = tree.nodes.length := by simpa using hU2
  -- values at leaves other than n are untouched; the value at n is 0
  have hval_pres : ∀ j, tree.nodes.length ≤ tree.K * j + 1 → j ≠ n →
      nodes'.getD j 0 = tree.nodes.getD j 0 := by
    intro j hjleaf hjn
    rw [hU5 j (leaf_not_mem_chain hnlen hjleaf), hdiff j hjn]
  have hvaln : nodes'.getD n 0 = 0 := by
    rw [hU5 n (self_not_mem_chain hKpos n), hsetn]
  refine ⟨nodes', ?_, ?_, hlen', hvaln⟩
  · rw [set_remove_eq hkey hid hnlen, update_parents_ainsert_eq]
    dsimp only
    rw [hU1]
  · -- the invariant for the new tree
    refine ⟨hinv.hK, by simpa [hlen'] using hinv.hlen, hU3, ?_, ?_, ?_, ?_, ?_, ?_, ?_, ?_,
      ?_, ?_, ?_⟩
    · -- hbij1
      intro p hp
      dsimp only at hp ⊢
      rw [mem_aremove_iff] at hp
      have hp2n : p.2 ≠ n := by
        intro he
        have h := hinv.hbij1 _ hp.1
        rw [he, hidx] at h
        have : p.1 = id := by simpa using h.symm
        exact hp.2 this
      rw [alookup_aremove_ne _ (Ne.symm hp2n)]
      exact hinv.hbij1 _ hp.1
    · -- hbij2
      intro p hp
      dsimp only at hp ⊢
      rw [mem_aremove_iff] at hp
      have hp2id : p.2 ≠ id := by
        intro he
        have h := hinv.hbij2 _ hp.1
        rw [he, hid] at h
        have : p.1 = n := by simpa using h.symm
        exact hp.2 this
      rw [alookup_aremove_ne _ (Ne.symm hp2id)]
      exact hinv.hbij2 _ hp.1
    · exact nodup_keys_aremove _ _ hinv.hnodup1
    · exact nodup_keys_aremove _ _ hinv.hnodup2
    · -- hrange
      intro p hp
      dsimp only at hp ⊢
      rw [mem_aremove_iff] at hp
      obtain ⟨h1, h2, h3, h4⟩ := hinv.hrange _ hp.1
      have hp2n : p.2 ≠ n := by
        intro he
        have h := hinv.hbij1 _ hp.1
        rw [he, hidx] at h
        have : p.1 = id := by simpa using h.symm
        exact hp.2 this
      refine ⟨h1, by omega, by omega, ?_⟩
      rw [hval_pres p.2 h3 hp2n]
      exact h4
    · -- hleafcov
      intro m h1 h2 h3
      dsimp only at h2 h3 ⊢
      rw [hlen'] at h2 h3
      by_cases hmn : m = n
      · subst hmn
        right
        exact List.mem_append_right _ (List.mem_singleton_self _)
      · rcases hinv.hleafcov m h1 h2 h3 with h | h
        · left
          rw [alookup_aremove_ne _ (Ne.symm hmn)]
          exact h
        · right
          exact List.mem_append_left _ h
    · -- hstack
      intro m hm
      dsimp only at hm ⊢
      rcases List.mem_append.1 hm with h | h
      · obtain ⟨h1, h2, h3, h4, h5⟩ := hinv.hstack m h
        have hmn : m ≠ n := fun he => hnstack (he ▸ h)
        refine ⟨h1, by omega, by omega, ?_, ?_⟩
        · rw [hval_pres m h3 hmn]
          exact h4
        · rw [alookup_aremove_ne _ (Ne.symm hmn)]
          exact h5
      · have hmn : m = n := by simpa using h
        subst hmn
        refine ⟨hn1, by omega, by omega, hvaln, alookup_aremove_self _ _⟩
    · -- hstacknd
      dsimp only
      rw [List.nodup_append]
      refine ⟨hinv.hstacknd, List.nodup_singleton _, ?_⟩
      intro a ha hb
      have hab : a = n := by simpa using hb
      exact hnstack (hab ▸ ha)
    · -- hroot1
      intro h
      dsimp only at h ⊢
      rw [hlen'] at h
      omega
    · -- hsum
      intro i hi
      dsimp only at hi ⊢
      exact hU4 i hi
    · -- hrootsum
      dsimp only
      have hroot := hU6
      have h0n : (0 : Nat) ≠ n := by omega
      rw [hdiff 0 h0n] at hroot
      have hsum_split := sum_map_aremove (fun p => tree.nodes.getD p.2 0)
        tree.ids_to_node_indexes id n hinv.hnodup1 hmem
      have hcongr : (aremove tree.ids_to_node_indexes id).map (fun p => nodes'.getD p.2 0)
          = (aremove tree.ids_to_node_indexes id).map (fun p => tree.nodes.getD p.2 0) := by
        apply List.map_congr_left
        intro p hp
        rw [mem_aremove_iff] at hp
        obtain ⟨h1, h2, h3, h4⟩ := hinv.hrange _ hp.1
        have hp2n : p.2 ≠ n := by
          intro he
          have h := hinv.hbij1 _ hp.1
          rw [he, hidx] at h
          have : p.1 = id := by simpa using h.symm
          exact hp.2 this
        exact hval_pres p.2 h3 hp2n
      unfold activeSum
      dsimp only
      rw [hcongr, hroot, hinv.hrootsum]
      have heq2 : activeSum tree
          = ((aremove tree.ids_to_node_indexes id).map
              (fun p => tree.nodes.getD p.2 0)).sum + tree.nodes.getD n 0 := by
        unfold activeSum
        exact hsum_split
      rw [heq2]
      exact wsub_cancel _ _ hwlt

/-- Rebuild the invariant after an in-place value change of the bound leaf `n`
(the maps and the stack are untouched). -/
theorem TreeInv_update_build {tree : SortitionSumTree} {id n v : Nat} (hinv : TreeInv tree)
    (hid : alookup tree.ids_to_node_indexes id = some n)
    {nodes' : List Nat}
    (hlen' : nodes'.length = tree.nodes.length)
    (hvals' : ∀ x ∈ nodes', x < U128MOD)
    (hsum' : ∀ i, tree.K * i + 1 < nodes'.length →
        nodes'.getD i 0 = childSum tree.K nodes' i % U128MOD)
    (hval_pres : ∀ j, tree.nodes.length ≤ tree.K * j + 1 → j ≠ n →
        nodes'.getD j 0 = tree.nodes.getD j 0)
    (hvaln : nodes'.getD n 0 = v)
    (hv0 : v ≠ 0)
    (hroot' : nodes'.getD 0 0 = (((aremove tree.ids_to_node_indexes id).map
        (fun p => tree.nodes.getD p.2 0)).sum + v) % U128MOD) :
    TreeInv { tree with nodes := nodes' } := by
  have hmem := alookup_mem hid
  have hidx : alookup tree.node_indexes_to_ids n = some id := hinv.hbij1 _ hmem
  obtain ⟨hn1, hnlen, hnleaf, hnval⟩ := hinv.hrange _ hmem
  dsimp only at hn1 hnlen hnleaf hnval
  refine ⟨hinv.hK, by dsimp only; rw [hlen']; exact hinv.hlen, hvals', ?_, ?_,
    hinv.hnodup1, hinv.hnodup2, ?_, ?_, ?_, hinv.hstacknd, ?_, ?_, ?_⟩
  · intro p hp
    exact hinv.hbij1 _ hp
  · intro p hp
    exact hinv.hbij2 _ hp
  · -- hrange
    intro p hp
    dsimp only at hp ⊢
    obtain ⟨h1, h2, h3, h4⟩ := hinv.hrange _ hp
    by_cases hpn : p.2 = n
    · refine ⟨h1, by omega, by omega, ?_⟩
      rw [hpn, hvaln]
      exact hv0
    · refine ⟨h1, by omega, by omega, ?_⟩
      rw [hval_pres p.2 h3 hpn]
      exact h4
  · -- hleafcov
    intro m h1 h2 h3
    dsimp only at h2 h3 ⊢
    rw [hlen'] at h2 h3
    exact hinv.hleafcov m h1 h2 h3
  · -- hstack
    intro m hm
    dsimp only at hm ⊢
    obtain ⟨h1, h2, h3, h4, h5⟩ := hinv.hstack m hm
    have hmn : m ≠ n := by
      intro he
      rw [he, hidx] at h5
      exact Option.noConfusion h5
    refine ⟨h1, by omega, by omega, ?_, h5⟩
    rw [hval_pres m h3 hmn]
    exact h4
  · -- hroot1
    intro h
    dsimp only at h ⊢
    rw [hlen'] at h
    omega
  · -- hsum
    intro i hi
    dsimp only at hi ⊢
    exact hsum' i hi
  · -- hrootsum
    dsimp only
    have hsplit := sum_map_aremove (fun p => nodes'.getD p.2 0)
      tree.ids_to_node_indexes id n hinv.hnodup1 hmem
    dsimp only at hsplit
    rw [hvaln] at hsplit
    have hcongr : (aremove tree.ids_to_node_indexes id).map (fun p => nodes'.getD p.2 0)
        = (aremove tree.ids_to_node_indexes id).map (fun p => tree.nodes.getD p.2 0) := by
      apply List.map_congr_left
      intro p hp
      rw [mem_aremove_iff] at hp
      obtain ⟨h1, h2, h3, h4⟩ := hinv.hrange _ hp.1
      have hp2n : p.2 ≠ n := by
        intro he
        have h := hinv.hbij1 _ hp.1
        rw [he, hidx] at h
        have : p.1 = id := by simpa using h.symm
        exact hp.2 this
      exact hval_pres p.2 h3 hp2n
    rw [hcongr] at hsplit
    have hact : activeSum { tree with nodes := nodes' }
        = ((aremove tree.ids_to_node_indexes id).map
            (fun p => tree.nodes.getD p.2 0)).sum + v := by
      unfold activeSum
      exact hsplit
    rw [hact]
    exact hroot'

/-- Update (`set` of a bound identifier to a new nonzero value): succeeds and
preserves the invariant; the identifier's stored weight becomes `v`. -/
theorem set_update_spec {trees : SortitionSumTrees} {key : TypeKey} {id : TypeAddress}
    {tree : SortitionSumTree} {n v : Nat}
    (hkey : alookup trees key = some tree) (hinv : TreeInv tree)
    (hid : alookup tree.ids_to_node_indexes id = some n)
    (hv0 : v ≠ 0) (hvM : v < U128MOD)
    (hne : v ≠ tree.nodes.getD n 0) :
    ∃ nodes',
      SortitionSumTrees.set trees key v id
        = some (ainsert trees key { tree with nodes := nodes' }) ∧
      TreeInv { tree with nodes := nodes' } ∧
      nodes'.length = tree.nodes.length ∧
      nodes'.getD n 0 = v := by
  have hK2 := hinv.hK
  have hKpos : 0 < tree.K := by omega
  have hmem := alookup_mem hid
  obtain ⟨hn1, hnlen, hnleaf, hnval⟩ := hinv.hrange _ hmem
  dsimp only at hn1 hnlen hnleaf hnval
  have hidx : alookup tree.node_indexes_to_ids n = some id := hinv.hbij1 _ hmem
  have hwlt : tree.nodes.getD n 0 < U128MOD :=
    hinv.hvals _ (getD_mem_of_lt _ _ hnlen)
  have hdiff : ∀ j, j ≠ n →
      (tree.nodes.set n v).getD j 0 = tree.nodes.getD j 0 := by
    intro j hj
    exact getD_set_ne _ _ _ _ (Ne.symm hj)
  have hcsu := childSum_update hKpos tree.nodes (tree.nodes.set n v) hn1 hdiff
  have hsetn : (tree.nodes.set n v).getD n 0 = v := getD_set_self _ _ _ hnlen
  obtain ⟨q, hq⟩ : ∃ t, (n - 1) / tree.K = t := ⟨_, rfl⟩
  have hqn : q < n := hq ▸ Nat.lt_of_le_of_lt (Nat.div_le_self _ _) (by omega)
  have hqK : q * tree.K ≤ n - 1 := hq ▸ Nat.div_mul_le_self _ _
  have hq_int : tree.K * q + 1 ≤ n := by
    rw [Nat.mul_comm]
    omega
  have hstar := (hcsu q).1 hq
  rw [hsetn] at hstar
  have hqne : q ≠ n := by omega
  have hcons1 : ∀ i, tree.K * i + 1 < (tree.nodes.set n v).length → i ≠ (n - 1) / tree.K →
      (tree.nodes.set n v).getD i 0 = childSum tree.K (tree.nodes.set n v) i % U128MOD := by
    intro i hi hine
    rw [hq] at hine
    have hi0 : tree.K * i + 1 < tree.nodes.length := by simpa using hi
    have hin : i ≠ n := by
      intro he
      subst he
      omega
    rw [getD_set_ne _ _ _ _ (Ne.symm hin), (hcsu i).2 (by rw [hq]; exact Ne.symm hine)]
    exact hinv.hsum i hi0
  have hqsum : tree.nodes.getD q 0 = childSum tree.K tree.nodes q % U128MOD :=
    hinv.hsum q (by omega)
  have hsplit := sum_map_aremove (fun p => tree.nodes.getD p.2 0)
    tree.ids_to_node_indexes id n hinv.hnodup1 hmem
  dsimp only at hsplit
  have hsplit2 : activeSum tree
      = ((aremove tree.ids_to_node_indexes id).map
          (fun p => tree.nodes.getD p.2 0)).sum + tree.nodes.getD n 0 := by
    unfold activeSum
    exact hsplit
  by_cases hsign : tree.nodes.getD n 0 ≤ v
  · -- increasing: propagate +(v - w)
    have hoff1 : ((tree.nodes.set n v).getD ((n - 1) / tree.K) 0
        + (v - tree.nodes.getD n 0)) % U128MOD
        = childSum tree.K (tree.nodes.set n v) ((n - 1) / tree.K) % U128MOD := by
      rw [hq, hdiff q hqne, hqsum, Nat.mod_add_mod]
      have heq : childSum tree.K tree.nodes q + (v - tree.nodes.getD n 0)
          = childSum tree.K (tree.nodes.set n v) q := by omega
      rw [heq]
    obtain ⟨nodes', hU1, hU2, hU3, hU4, hU5, hU6⟩ :=
      updateParentsLoop_spec_add hKpos (v := v - tree.nodes.getD n 0) (by omega)
        n (tree.nodes.set n v) hn1 (by simpa using hnlen)
        (by
          intro x hx
          rcases List.mem_or_eq_of_mem_set hx with h | h
          · exact hinv.hvals x h
          · subst h
            exact hvM)
        hcons1 hoff1
    have hlen' : nodes'.length = tree.nodes.length := by simpa using hU2
    have hval_pres : ∀ j, tree.nodes.length ≤ tree.K * j + 1 → j ≠ n →
        nodes'.getD j 0 = tree.nodes.getD j 0 := by
      intro j hjleaf hjn
      rw [hU5 j (leaf_not_mem_chain hnlen hjleaf), hdiff j hjn]
    have hvaln : nodes'.getD n 0 = v := by
      rw [hU5 n (self_not_mem_chain hKpos n), hsetn]
    refine ⟨nodes', ?_, ?_, hlen', hvaln⟩
    · rw [set_update_eq hkey hid hv0 hnlen hne, update_parents_ainsert_eq]
      dsimp only
      have hd : decide (tree.nodes.getD n 0 ≤ v) = true := decide_eq_true hsign
      rw [hd, if_pos hsign, hU1]
    · refine TreeInv_update_build hinv hid hlen' hU3 hU4 hval_pres hvaln hv0 ?_
      rw [hU6, hdiff 0 (by omega), hinv.hrootsum, wadd_eq, Nat.mod_add_mod]
      have heq2 : activeSum tree + (v - tree.nodes.getD n 0)
          = ((aremove tree.ids_to_node_indexes id).map
              (fun p => tree.nodes.getD p.2 0)).sum + v := by omega
      rw [heq2]
  · -- decreasing: propagate -(w - v)
    have hoff1 : (tree.nodes.set n v).getD ((n - 1) / tree.K) 0
        = (childSum tree.K (tree.nodes.set n v) ((n - 1) / tree.K)
            + (tree.nodes.getD n 0 - v)) % U128MOD := by
      rw [hq, hdiff q hqne, hqsum]
      have heq : childSum tree.K (tree.nodes.set n v) q + (tree.nodes.getD n 0 - v)
          = childSum tree.K tree.nodes q := by omega
      rw [heq]
    obtain ⟨nodes', hU1, hU2, hU3, hU4, hU5, hU6⟩ :=
      updateParentsLoop_spec_sub hKpos (v := tree.nodes.getD n 0 - v) (by omega)
        n (tree.nodes.set n v) hn1 (by simpa using hnlen)
        (by
          intro x hx
          rcases List.mem_or_eq_of_mem_set hx with h | h
          · exact hinv.hvals x h
          · subst h
            exact hvM)
        hcons1 hoff1
    have hlen' : nodes'.length = tree.nodes.length := by simpa using hU2
    have hval_pres : ∀ j, tree.nodes.length ≤ tree.K * j + 1 → j ≠ n →
        nodes'.getD j 0 = tree.nodes.getD j 0 := by
      intro j hjleaf hjn
      rw [hU5 j (leaf_not_mem_chain hnlen hjleaf), hdiff j hjn]
    have hvaln : nodes'.getD n 0 = v := by
      rw [hU5 n (self_not_mem_chain hKpos n), hsetn]
    refine ⟨nodes', ?_, ?_, hlen', hvaln⟩
    · rw [set_update_eq hkey hid hv0 hnlen hne, update_parents_ainsert_eq]
      dsimp only
      have hd : decide (tree.nodes.getD n 0 ≤ v) = false := decide_eq_false hsign
      rw [hd, if_neg hsign, hU1]
    · refine TreeInv_update_build hinv hid hlen' hU3 hU4 hval_pres hvaln hv0 ?_
      rw [hU6, hdiff 0 (by omega), hinv.hrootsum]
      have heq2 : activeSum tree
          = (((aremove tree.ids_to_node_indexes id).map
              (fun p => tree.nodes.getD p.2 0)).sum + v) + (tree.nodes.getD n 0 - v) := by
        omega
      rw [heq2]
      exact wsub_cancel _ _ (by omega)

theorem getLast?_eq_some_ex {l : List Nat} {a : Nat} (h : l.getLast? = some a) :
    ∃ l', l = l' ++ [a] := by
  induction l with
  | nil => simp at h
  | cons x rest ih =>
    cases hr : rest with
    | nil =>
      subst hr
      have : x = a := by simpa using h
      exact ⟨[], by simp [this]⟩
    | cons y t =>
      subst hr
      rw [List.getLast?_cons_cons] at h
      obtain ⟨l', hl⟩ := ih h
      exact ⟨x :: l', by simp [hl]⟩

/-- A leaf has no children in range, so its child sum is 0. -/
theorem childSum_of_leaf {K : Nat} (nodes : List Nat) (i : Nat)
    (h : nodes.length ≤ K * i + 1) : childSum K nodes i = 0 := by
  unfold childSum
  apply List.sum_eq_zero
  intro x hx
  rcases List.mem_map.1 hx with ⟨j, hj, hxe⟩
  rw [mem_range'_iff] at hj
  rw [← hxe]
  exact List.getD_eq_default _ _ (by omega)

/-- Insertion reusing the top of the free-list stack: succeeds, binds `id` to
the popped index, keeps the array length, and preserves the invariant. -/
theorem set_insert_reuse_spec {trees : SortitionSumTrees} {key : TypeKey} {id : TypeAddress}
    {tree : SortitionSumTree} {ti v : Nat}
    (hkey : alookup trees key = some tree) (hinv : TreeInv tree)
    (hid : alookup tree.ids_to_node_indexes id = none)
    (hv0 : v ≠ 0) (hvM : v < U128MOD)
    (hlast : tree.stack.getLast? = some ti) :
    ∃ nodes',
      SortitionSumTrees.set trees key v id = some (ainsert trees key
        { tree with
          stack := tree.stack.dropLast,
          nodes := nodes',
          ids_to_node_indexes := ainsert tree.ids_to_node_indexes id ti,
          node_indexes_to_ids := ainsert tree.node_indexes_to_ids ti id }) ∧
      TreeInv { tree with
          stack := tree.stack.dropLast,
          nodes := nodes',
          ids_to_node_indexes := ainsert tree.ids_to_node_indexes id ti,
          node_indexes_to_ids := ainsert tree.node_indexes_to_ids ti id } ∧
      nodes'.length = tree.nodes.length ∧
      nodes'.getD ti 0 = v := by
  have hK2 := hinv.hK
  have hKpos : 0 < tree.K := by omega
  obtain ⟨s', hs⟩ := getLast?_eq_some_ex hlast
  have hstknz : tree.stack.length ≠ 0 := by
    rw [hs]
    simp
  have htimem : ti ∈ tree.stack := by
    rw [hs]
    exact List.mem_append_right _ (List.mem_singleton_self _)
  obtain ⟨hti1, htilen, htileaf, htival, htinobind⟩ := hinv.hstack ti htimem
  have htinos : ti ∉ s' := by
    intro hmem
    have := hinv.hstacknd
    rw [hs, List.nodup_append] at this
    exact this.2.2 hmem (List.mem_singleton_self _)
  have hdrop : tree.stack.dropLast = s' := by
    rw [hs]
    exact List.dropLast_concat
  have hdiff : ∀ j, j ≠ ti →
      (tree.nodes.set ti v).getD j 0 = tree.nodes.getD j 0 := by
    intro j hj
    exact getD_set_ne _ _ _ _ (Ne.symm hj)
  have hcsu := childSum_update hKpos tree.nodes (tree.nodes.set ti v) hti1 hdiff
  have hsetti : (tree.nodes.set ti v).getD ti 0 = v := getD_set_self _ _ _ htilen
  obtain ⟨q, hq⟩ : ∃ t, (ti - 1) / tree.K = t := ⟨_, rfl⟩
  have hqti : q < ti := hq ▸ Nat.lt_of_le_of_lt (Nat.div_le_self _ _) (by omega)
  have hqK : q * tree.K ≤ ti - 1 := hq ▸ Nat.div_mul_le_self _ _
  have hq_int : tree.K * q + 1 ≤ ti := by
    rw [Nat.mul_comm]
    omega
  have hqne : q ≠ ti := by omega
  have hcons1 : ∀ i, tree.K * i + 1 < (tree.nodes.set ti v).length → i ≠ (ti - 1) / tree.K →
      (tree.nodes.set ti v).getD i 0
        = childSum tree.K (tree.nodes.set ti v) i % U128MOD := by
    intro i hi hine
    rw [hq] at hine
    have hi0 : tree.K * i + 1 < tree.nodes.length := by simpa using hi
    have hin : i ≠ ti := by
      intro he
      subst he
      omega
    rw [getD_set_ne _ _ _ _ (Ne.symm hin), (hcsu i).2 (by rw [hq]; exact Ne.symm hine)]
    exact hinv.hsum i hi0
  have hoff1 : ((tree.nodes.set ti v).getD ((ti - 1) / tree.K) 0 + v) % U128MOD
      = childSum tree.K (tree.nodes.set ti v) ((ti - 1) / tree.K) % U128MOD := by
    rw [hq, hdiff q hqne, hinv.hsum q (by omega), Nat.mod_add_mod]
    have hstar := (hcsu q).1 hq
    rw [hsetti, htival] at hstar
    have heq : childSum tree.K tree.nodes q + v
        = childSum tree.K (tree.nodes.set ti v) q := by omega
    rw [heq]
  obtain ⟨nodes', hU1, hU2, hU3, hU4, hU5, hU6⟩ :=
    updateParentsLoop_spec_add hKpos hvM ti (tree.nodes.set ti v) hti1
      (by simpa using htilen)
      (by
        intro x hx
        rcases List.mem_or_eq_of_mem_set hx with h | h
        · exact hinv.hvals x h
        · subst h
          exact hvM)
      hcons1 hoff1
  have hlen' : nodes'.length = tree.nodes.length := by simpa using hU2
  have hval_pres : ∀ j, tree.nodes.length ≤ tree.K * j + 1 → j ≠ ti →
      nodes'.getD j 0 = tree.nodes.getD j 0 := by
    intro j hjleaf hjn
    rw [hU5 j (leaf_not_mem_chain htilen hjleaf), hdiff j hjn]
  have hvalti : nodes'.getD ti 0 = v := by
    rw [hU5 ti (self_not_mem_chain hKpos ti), hsetti]
  have hidxti : ∀ m, alookup (ainsert tree.node_indexes_to_ids ti id) m
      = if ti = m then some id else alookup tree.node_indexes_to_ids m := by
    intro m
    exact alookup_ainsert _ _ _ _
  refine ⟨nodes', ?_, ?_, hlen', hvalti⟩
  · rw [set_insert_reuse_eq hkey hid hv0 hstknz hlast htilen, bind_and_update_eq]
    dsimp only
    rw [hU1]
    dsimp only [Option.map_some']
  · refine ⟨hinv.hK, by dsimp only; rw [hlen']; exact hinv.hlen, hU3, ?_, ?_, ?_, ?_, ?_,
      ?_, ?_, ?_, ?_, ?_, ?_⟩
    · -- hbij1
      intro p hp
      dsimp only at hp ⊢
      rw [mem_ainsert_iff] at hp
      rcases hp with hp | hp
      · subst hp
        dsimp only
        rw [alookup_ainsert_self]
      · have hp2ti : p.2 ≠ ti := by
          intro he
          have h := hinv.hbij1 _ hp.1
          rw [he, htinobind] at h
          exact Option.noConfusion h
        rw [alookup_ainsert_ne _ _ (Ne.symm hp2ti)]
        exact hinv.hbij1 _ hp.1
    · -- hbij2
      intro p hp
      dsimp only at hp ⊢
      rw [mem_ainsert_iff] at hp
      rcases hp with hp | hp
      · subst hp
        dsimp only
        rw [alookup_ainsert_self]
      · have hp2id : p.2 ≠ id := by
          intro he
          have h := hinv.hbij2 _ hp.1
          rw [he, hid] at h
          exact Option.noConfusion h
        rw [alookup_ainsert_ne _ _ (Ne.symm hp2id)]
        exact hinv.hbij2 _ hp.1
    · exact nodup_keys_ainsert _ _ _ hinv.hnodup1
    · exact nodup_keys_ainsert _ _ _ hinv.hnodup2
    · -- hrange
      intro p hp
      dsimp only at hp ⊢
      rw [mem_ainsert_iff] at hp
      rcases hp with hp | hp
      · subst hp
        dsimp only
        refine ⟨hti1, by omega, by omega, ?_⟩
        rw [hvalti]
        exact hv0
      · obtain ⟨h1, h2, h3, h4⟩ := hinv.hrange _ hp.1
        have hp2ti : p.2 ≠ ti := by
          intro he
          have h := hinv.hbij1 _ hp.1
          rw [he, htinobind] at h
          exact Option.noConfusion h
        refine ⟨h1, by omega, by omega, ?_⟩
        rw [hval_pres p.2 h3 hp2ti]
        exact h4
    · -- hleafcov
      intro m h1 h2 h3
      dsimp only at h2 h3 ⊢
      rw [hlen'] at h2 h3
      by_cases hmti : m = ti
      · left
        rw [hidxti m, if_pos hmti.symm]
        exact Option.noConfusion
      · rcases hinv.hleafcov m h1 h2 h3 with h | h
        · left
          rw [hidxti m, if_neg (fun he => hmti he.symm)]
          exact h
        · right
          rw [hdrop]
          have : m ∈ s' ++ [ti] := hs ▸ h
          rcases List.mem_append.1 this with h' | h'
          · exact h'
          · exact absurd (by simpa using h') hmti
    · -- hstack
      intro m hm
      dsimp only at hm ⊢
      rw [hdrop] at hm
      have hmstk : m ∈ tree.stack := by
        rw [hs]
        exact List.mem_append_left _ hm
      obtain ⟨h1, h2, h3, h4, h5⟩ := hinv.hstack m hmstk
      have hmti : m ≠ ti := fun he => htinos (he ▸ hm)
      refine ⟨h1, by omega, by omega, ?_, ?_⟩
      · rw [hval_pres m h3 hmti]
        exact h4
      · rw [hidxti m, if_neg (fun he => hmti he.symm)]
        exact h5
    · -- hstacknd
      dsimp only
      rw [hdrop]
      have := hinv.hstacknd
      rw [hs, List.nodup_append] at this
      exact this.1
    · -- hroot1
      intro h
      dsimp only at h
      rw [hlen'] at h
      exact absurd htilen (by omega)
    · -- hsum
      intro i hi
      dsimp only at hi ⊢
      exact hU4 i hi
    · -- hrootsum
      dsimp only
      have hids_arem : aremove tree.ids_to_node_indexes id = tree.ids_to_node_indexes :=
        aremove_eq_of_none hid
      have hcongr : tree.ids_to_node_indexes.map (fun p => nodes'.getD p.2 0)
          = tree.ids_to_node_indexes.map (fun p => tree.nodes.getD p.2 0) := by
        apply List.map_congr_left
        intro p hp
        obtain ⟨h1, h2, h3, h4⟩ := hinv.hrange _ hp
        have hp2ti : p.2 ≠ ti := by
          intro he
          have h := hinv.hbij1 _ hp
          rw [he, htinobind] at h
          exact Option.noConfusion h
        exact hval_pres p.2 h3 hp2ti
      have hact : activeSum { tree with
          stack := tree.stack.dropLast,
          nodes := nodes',
          ids_to_node_indexes := ainsert tree.ids_to_node_indexes id ti,
          node_indexes_to_ids := ainsert tree.node_indexes_to_ids ti id }
          = v + activeSum tree := by
        unfold activeSum
        dsimp only
        unfold ainsert
        rw [hids_arem]
        dsimp only [List.map_cons, List.sum_cons]
        rw [hvalti, hcongr]
      rw [hact, hU6, hdiff 0 (by omega), hinv.hrootsum, wadd_eq, Nat.mod_add_mod]
      have : activeSum tree + v = v + activeSum tree := by omega
      rw [this]

/-- The very first insertion into a fresh tree (array `[0]`): appends index 1. -/
theorem set_insert_first_spec {trees : SortitionSumTrees} {key : TypeKey} {id : TypeAddress}
    {tree : SortitionSumTree} {v : Nat}
    (hkey : alookup trees key = some tree) (hinv : TreeInv tree)
    (hid : alookup tree.ids_to_node_indexes id = none)
    (hv0 : v ≠ 0) (hvM : v < U128MOD)
    (hstk : tree.stack.length = 0)
    (hlen1 : tree.nodes.length = 1) :
    ∃ nodes',
      SortitionSumTrees.set trees key v id = some (ainsert trees key
        { tree with
          nodes := nodes',
          ids_to_node_indexes := ainsert tree.ids_to_node_indexes id tree.nodes.length,
          node_indexes_to_ids := ainsert tree.node_indexes_to_ids tree.nodes.length id }) ∧
      TreeInv { tree with
          nodes := nodes',
          ids_to_node_indexes := ainsert tree.ids_to_node_indexes id tree.nodes.length,
          node_indexes_to_ids := ainsert tree.node_indexes_to_ids tree.nodes.length id } ∧
      nodes'.length = tree.nodes.length + 1 ∧
      nodes'.getD tree.nodes.length 0 = v := by
  have hK2 := hinv.hK
  have hKpos : 0 < tree.K := by omega
  have hids_nil : tree.ids_to_node_indexes = [] := by
    rw [List.eq_nil_iff_forall_not_mem]
    intro p hp
    obtain ⟨h1, h2, h3, h4⟩ := hinv.hrange _ hp
    omega
  have hidx_nil : tree.node_indexes_to_ids = [] := by
    rw [List.eq_nil_iff_forall_not_mem]
    intro p hp
    have h := hinv.hbij2 _ hp
    rw [hids_nil] at h
    exact Option.noConfusion h
  have hstk_nil : tree.stack = [] := List.length_eq_zero.1 hstk
  have hroot0 : tree.nodes.getD 0 0 = 0 := hinv.hroot1 hlen1
  have happ : ∀ j, j ≠ tree.nodes.length →
      (tree.nodes ++ [v]).getD j 0 = tree.nodes.getD j 0 := by
    intro j hj
    rw [getD_singleton_append, if_neg hj]
  have happlen : (tree.nodes ++ [v]).length = tree.nodes.length + 1 := by simp
  have hval1 : (tree.nodes ++ [v]).getD tree.nodes.length 0 = v := by
    rw [getD_singleton_append, if_pos rfl]
  have hcsu := childSum_update hKpos tree.nodes (tree.nodes ++ [v])
    (by omega : 1 ≤ tree.nodes.length) happ
  have hparent : (tree.nodes.length - 1) / tree.K = 0 := by
    rw [hlen1]
    simp
  have hcons1 : ∀ i, tree.K * i + 1 < (tree.nodes ++ [v]).length →
      i ≠ (tree.nodes.length - 1) / tree.K →
      (tree.nodes ++ [v]).getD i 0
        = childSum tree.K (tree.nodes ++ [v]) i % U128MOD := by
    intro i hi hine
    rw [hparent] at hine
    exfalso
    have hi1 : 1 ≤ i := Nat.pos_of_ne_zero hine
    have : tree.K * 1 ≤ tree.K * i := Nat.mul_le_mul_left _ hi1
    rw [happlen, hlen1] at hi
    omega
  have hoff1 : ((tree.nodes ++ [v]).getD ((tree.nodes.length - 1) / tree.K) 0 + v) % U128MOD
      = childSum tree.K (tree.nodes ++ [v]) ((tree.nodes.length - 1) / tree.K) % U128MOD := by
    rw [hparent, happ 0 (by omega), hroot0]
    have hstar := (hcsu 0).1 hparent
    rw [hval1, show tree.nodes.getD tree.nodes.length 0 = 0 from
        List.getD_eq_default _ _ (by omega),
      show childSum tree.K tree.nodes 0 = 0 from childSum_of_leaf _ _ (by omega)] at hstar
    have hcs : childSum tree.K (tree.nodes ++ [v]) 0 = v := by omega
    rw [hcs, Nat.zero_add]
  obtain ⟨nodes', hU1, hU2, hU3, hU4, hU5, hU6⟩ :=
    updateParentsLoop_spec_add hKpos hvM tree.nodes.length (tree.nodes ++ [v])
      (by omega) (by omega)
      (by
        intro x hx
        rcases List.mem_append.1 hx with h | h
        · exact hinv.hvals x h
        · have : x = v := by simpa using h
          subst this
          exact hvM)
      hcons1 hoff1
  have hlen' : nodes'.length = tree.nodes.length + 1 := by
    rw [hU2, happlen]
  have hvalti : nodes'.getD tree.nodes.length 0 = v := by
    rw [hU5 _ (self_not_mem_chain hKpos _), hval1]
  refine ⟨nodes', ?_, ?_, hlen', hvalti⟩
  · rw [set_insert_first_eq hkey hid hv0 hstk hlen1, bind_and_update_eq]
    dsimp only
    rw [hU1]
    dsimp only [Option.map_some']
  · refine ⟨hinv.hK, by dsimp only; omega, hU3, ?_, ?_, ?_, ?_, ?_, ?_, ?_, ?_, ?_, ?_, ?_⟩
    · -- hbij1
      intro p hp
      dsimp only at hp ⊢
      rw [hids_nil] at hp
      rcases (mem_ainsert_iff _ _ _ _).1 hp with hp | hp
      · subst hp
        dsimp only
        rw [alookup_ainsert_self]
      · exact absurd hp.1 (List.not_mem_nil _)
    · -- hbij2
      intro p hp
      dsimp only at hp ⊢
      rw [hidx_nil] at hp
      rcases (mem_ainsert_iff _ _ _ _).1 hp with hp | hp
      · subst hp
        dsimp only
        rw [alookup_ainsert_self]
      · exact absurd hp.1 (List.not_mem_nil _)
    · exact nodup_keys_ainsert _ _ _ hinv.hnodup1
    · exact nodup_keys_ainsert _ _ _ hinv.hnodup2
    · -- hrange
      intro p hp
      dsimp only at hp ⊢
      rw [hids_nil] at hp
      rcases (mem_ainsert_iff _ _ _ _).1 hp with hp | hp
      · subst hp
        dsimp only
        refine ⟨by omega, by omega, ?_, ?_⟩
        · rw [hlen', hlen1]
          have : tree.K * 1 ≤ tree.K * tree.nodes.length :=
            Nat.mul_le_mul_left _ (by omega)
          omega
        · rw [hvalti]
          exact hv0
      · exact absurd hp.1 (List.not_mem_nil _)
    · -- hleafcov
      intro m h1 h2 h3
      dsimp only at h2 h3 ⊢
      rw [hlen', hlen1] at h2
      have hm1 : m = 1 := by omega
      subst hm1
      left
      rw [hlen1, alookup_ainsert_self]
      simp
    · -- hstack
      intro m hm
      dsimp only at hm
      rw [hstk_nil] at hm
      exact absurd hm (List.not_mem_nil _)
    · -- hstacknd
      dsimp only
      exact hinv.hstacknd
    · -- hroot1
      intro h
      dsimp only at h
      rw [hlen'] at h
      omega
    · -- hsum
      intro i hi
      dsimp only at hi ⊢
      exact hU4 i hi
    · -- hrootsum
      dsimp only
      have hact : activeSum { tree with
          nodes := nodes',
          ids_to_node_indexes := ainsert tree.ids_to_node_indexes id tree.nodes.length,
          node_indexes_to_ids := ainsert tree.node_indexes_to_ids tree.nodes.length id }
          = v := by
        unfold activeSum
        dsimp only
        rw [hids_nil]
        unfold ainsert aremove
        dsimp only [List.filter_nil, List.map_cons, List.map_nil, List.sum_cons,
          List.sum_nil]
        rw [hvalti]
        omega
      rw [hact, hU6, happ 0 (by omega), hroot0, wadd_eq, Nat.zero_add]

/-- A bound index in the `node_indexes_to_ids` map is always strictly below the
array length, so indices at or past the length are unmapped. -/
theorem alookup_idx_ge_none {tree : SortitionSumTree} (hinv : TreeInv tree) {m : Nat}
    (hm : tree.nodes.length ≤ m) : alookup tree.node_indexes_to_ids m = none := by
  rw [alookup_eq_none_iff]
  intro p hp he
  have h := hinv.hbij2 _ hp
  obtain ⟨h1, h2, h3, h4⟩ := hinv.hrange _ (alookup_mem h)
  dsimp only at h2
  omega

/-- Appending a fresh node that is not a first child slot: succeeds, binds `id`
to the new index `len`, grows the array by one, and preserves the invariant. -/
theorem set_insert_append_spec {trees : SortitionSumTrees} {key : TypeKey} {id : TypeAddress}
    {tree : SortitionSumTree} {v : Nat}
    (hkey : alookup trees key = some tree) (hinv : TreeInv tree)
    (hid : alookup tree.ids_to_node_indexes id = none)
    (hv0 : v ≠ 0) (hvM : v < U128MOD)
    (hstk : tree.stack.length = 0)
    (hlen1 : tree.nodes.length ≠ 1)
    (hmod : (tree.nodes.length - 1) % tree.K ≠ 0) :
    ∃ nodes',
      SortitionSumTrees.set trees key v id = some (ainsert trees key
        { tree with
          nodes := nodes',
          ids_to_node_indexes := ainsert tree.ids_to_node_indexes id tree.nodes.length,
          node_indexes_to_ids := ainsert tree.node_indexes_to_ids tree.nodes.length id }) ∧
      TreeInv { tree with
          nodes := nodes',
          ids_to_node_indexes := ainsert tree.ids_to_node_indexes id tree.nodes.length,
          node_indexes_to_ids := ainsert tree.node_indexes_to_ids tree.nodes.length id } ∧
      nodes'.length = tree.nodes.length + 1 ∧
      nodes'.getD tree.nodes.length 0 = v := by
  have hK2 := hinv.hK
  have hKpos : 0 < tree.K := by omega
  have hKne : tree.K ≠ 0 := by omega
  have hlen0 := hinv.hlen
  have hlen2 : 2 ≤ tree.nodes.length := by omega
  have hstk_nil : tree.stack = [] := List.length_eq_zero.1 hstk
  obtain ⟨q, hq⟩ : ∃ t, (tree.nodes.length - 1) / tree.K = t := ⟨_, rfl⟩
  obtain ⟨r0, hr0⟩ : ∃ t, (tree.nodes.length - 1) % tree.K = t := ⟨_, rfl⟩
  rw [hr0] at hmod
  have hr0K : r0 < tree.K := hr0 ▸ Nat.mod_lt _ hKpos
  have hdm : tree.K * q + r0 = tree.nodes.length - 1 := by
    rw [← hq, ← hr0]
    exact Nat.div_add_mod _ _
  have hq_int : tree.K * q + 1 < tree.nodes.length := by omega
  have hqlen : q < tree.nodes.length := by
    have : q ≤ tree.K * q := Nat.le_mul_of_pos_left q hKpos
    omega
  have hqlenne : q ≠ tree.nodes.length := by omega
  -- no index of the form K*i+1 equals len (that would make len-1 divisible by K)
  have hno_new_internal : ∀ i, tree.K * i + 1 ≠ tree.nodes.length := by
    intro i he
    have h1 : tree.K * i % tree.K = 0 := Nat.mul_mod_right _ _
    have h2 : tree.K * i = tree.K * q + r0 := by omega
    rw [h2, Nat.mul_add_mod, Nat.mod_eq_of_lt hr0K] at h1
    exact hmod h1
  have happ : ∀ j, j ≠ tree.nodes.length →
      (tree.nodes ++ [v]).getD j 0 = tree.nodes.getD j 0 := by
    intro j hj
    rw [getD_singleton_append, if_neg hj]
  have happlen : (tree.nodes ++ [v]).length = tree.nodes.length + 1 := by simp
  have hval1 : (tree.nodes ++ [v]).getD tree.nodes.length 0 = v := by
    rw [getD_singleton_append, if_pos rfl]
  have hcsu := childSum_update hKpos tree.nodes (tree.nodes ++ [v])
    (by omega : 1 ≤ tree.nodes.length) happ
  have hcons1 : ∀ i, tree.K * i + 1 < (tree.nodes ++ [v]).length →
      i ≠ (tree.nodes.length - 1) / tree.K →
      (tree.nodes ++ [v]).getD i 0
        = childSum tree.K (tree.nodes ++ [v]) i % U128MOD := by
    intro i hi hine
    rw [hq] at hine
    rw [happlen] at hi
    have hilt : tree.K * i + 1 < tree.nodes.length := by
      have := hno_new_internal i
      omega
    have hiq : i < tree.nodes.length := by
      have : i ≤ tree.K * i := Nat.le_mul_of_pos_left i hKpos
      omega
    rw [happ i (by omega), (hcsu i).2 (by rw [hq]; exact Ne.symm hine)]
    exact hinv.hsum i hilt
  have hoff1 : ((tree.nodes ++ [v]).getD ((tree.nodes.length - 1) / tree.K) 0 + v) % U128MOD
      = childSum tree.K (tree.nodes ++ [v]) ((tree.nodes.length - 1) / tree.K) % U128MOD := by
    rw [hq, happ q hqlenne, hinv.hsum q hq_int, Nat.mod_add_mod]
    have hstar := (hcsu q).1 hq
    rw [hval1, show tree.nodes.getD tree.nodes.length 0 = 0 from
        List.getD_eq_default _ _ (by omega)] at hstar
    have heq : childSum tree.K tree.nodes q + v
        = childSum tree.K (tree.nodes ++ [v]) q := by omega
    rw [heq]
  obtain ⟨nodes', hU1, hU2, hU3, hU4, hU5, hU6⟩ :=
    updateParentsLoop_spec_add hKpos hvM tree.nodes.length (tree.nodes ++ [v])
      (by omega) (by omega)
      (by
        intro x hx
        rcases List.mem_append.1 hx with h | h
        · exact hinv.hvals x h
        · have : x = v := by simpa using h
          subst this
          exact hvM)
      hcons1 hoff1
  have hlen' : nodes'.length = tree.nodes.length + 1 := by
    rw [hU2, happlen]
  have hvalti : nodes'.getD tree.nodes.length 0 = v := by
    rw [hU5 _ (self_not_mem_chain hKpos _), hval1]
  have hval_pres : ∀ j, tree.nodes.length + 1 ≤ tree.K * j + 1 → j ≠ tree.nodes.length →
      nodes'.getD j 0 = tree.nodes.getD j 0 := by
    intro j hjleaf hjn
    rw [hU5 j (leaf_not_mem_chain
      (show tree.nodes.length < tree.nodes.length + 1 by omega) hjleaf), happ j hjn]
  have hold_leaf_strict : ∀ j, tree.nodes.length ≤ tree.K * j + 1 →
      tree.nodes.length + 1 ≤ tree.K * j + 1 := by
    intro j hj
    have := hno_new_internal j
    omega
  have hidxlen : alookup tree.node_indexes_to_ids tree.nodes.length = none :=
    alookup_idx_ge_none hinv (le_refl _)
  refine ⟨nodes', ?_, ?_, hlen', hvalti⟩
  · rw [set_insert_append_eq hkey hid hv0 hstk hlen1 hKne (hr0 ▸ hmod), bind_and_update_eq]
    dsimp only
    rw [hU1]
    dsimp only [Option.map_some']
  · refine ⟨hinv.hK, by dsimp only; omega, hU3, ?_, ?_, ?_, ?_, ?_, ?_, ?_, ?_, ?_, ?_, ?_⟩
    · -- hbij1
      intro p hp
      dsimp only at hp ⊢
      rcases (mem_ainsert_iff _ _ _ _).1 hp with hp | hp
      · subst hp
        dsimp only
        rw [alookup_ainsert_self]
      · obtain ⟨h1, h2, h3, h4⟩ := hinv.hrange _ hp.1
        have hp2 : p.2 ≠ tree.nodes.length := by omega
        rw [alookup_ainsert_ne _ _ (Ne.symm hp2)]
        exact hinv.hbij1 _ hp.1
    · -- hbij2
      intro p hp
      dsimp only at hp ⊢
      rcases (mem_ainsert_iff _ _ _ _).1 hp with hp | hp
      · subst hp
        dsimp only
        rw [alookup_ainsert_self]
      · have h := hinv.hbij2 _ hp.1
        have hp2id : p.2 ≠ id := by
          intro he
          rw [he, hid] at h
          exact Option.noConfusion h
        rw [alookup_ainsert_ne _ _ (Ne.symm hp2id)]
        exact h
    · exact nodup_keys_ainsert _ _ _ hinv.hnodup1
    · exact nodup_keys_ainsert _ _ _ hinv.hnodup2
    · -- hrange
      intro p hp
      dsimp only at hp ⊢
      rcases (mem_ainsert_iff _ _ _ _).1 hp with hp | hp
      · subst hp
        dsimp only
        refine ⟨by omega, by omega, ?_, ?_⟩
        · rw [hlen']
          have : tree.nodes.length ≤ tree.K * tree.nodes.length :=
            Nat.le_mul_of_pos_left _ hKpos
          omega
        · rw [hvalti]
          exact hv0
      · obtain ⟨h1, h2, h3, h4⟩ := hinv.hrange _ hp.1
        have h3' := hold_leaf_strict _ h3
        have hp2 : p.2 ≠ tree.nodes.length := by omega
        refine ⟨h1, by omega, by omega, ?_⟩
        rw [hval_pres p.2 h3' hp2]
        exact h4
    · -- hleafcov
      intro m h1 h2 h3
      dsimp only at h2 h3 ⊢
      rw [hlen'] at h2 h3
      by_cases hmt : m = tree.nodes.length
      · left
        subst hmt
        rw [alookup_ainsert_self]
        simp
      · have h2' : m < tree.nodes.length := by omega
        rcases hinv.hleafcov m h1 h2' (by omega) with h | h
        · left
          rw [alookup_ainsert_ne _ _ (fun he => hmt he.symm)]
          exact h
        · rw [hstk_nil] at h
          exact absurd h (List.not_mem_nil _)
    · -- hstack
      intro m hm
      dsimp only at hm
      rw [hstk_nil] at hm
      exact absurd hm (List.not_mem_nil _)
    · -- hstacknd
      dsimp only
      exact hinv.hstacknd
    · -- hroot1
      intro h
      dsimp only at h
      rw [hlen'] at h
      omega
    · -- hsum
      intro i hi
      dsimp only at hi ⊢
      exact hU4 i hi
    · -- hrootsum
      dsimp only
      have hids_arem : aremove tree.ids_to_node_indexes id = tree.ids_to_node_indexes :=
        aremove_eq_of_none hid
      have hcongr : tree.ids_to_node_indexes.map (fun p => nodes'.getD p.2 0)
          = tree.ids_to_node_indexes.map (fun p => tree.nodes.getD p.2 0) := by
        apply List.map_congr_left
        intro p hp
        obtain ⟨h1, h2, h3, h4⟩ := hinv.hrange _ hp
        exact hval_pres p.2 (hold_leaf_strict _ h3) (by omega)
      have hact : activeSum { tree with
          nodes := nodes',
          ids_to_node_indexes := ainsert tree.ids_to_node_indexes id tree.nodes.length,
          node_indexes_to_ids := ainsert tree.node_indexes_to_ids tree.nodes.length id }
          = v + activeSum tree := by
        unfold activeSum
        dsimp only
        unfold ainsert
        rw [hids_arem]
        dsimp only [List.map_cons, List.sum_cons]
        rw [hvalti, hcongr]
      rw [hact, hU6, happ 0 (by omega), hinv.hrootsum, wadd_eq, Nat.mod_add_mod]
      have : activeSum tree + v = v + activeSum tree := by omega
      rw [this]

/-- Appending a fresh node at a first child slot (the move-the-parent-down
path): succeeds, appends two nodes, re-binds the parent's identifier to the
second new node, binds `id` to the first, and preserves the invariant. -/
theorem set_insert_move_spec {trees : SortitionSumTrees} {key : TypeKey} {id : TypeAddress}
    {tree : SortitionSumTree} {v : Nat}
    (hkey : alookup trees key = some tree) (hinv : TreeInv tree)
    (hid : alookup tree.ids_to_node_indexes id = none)
    (hv0 : v ≠ 0) (hvM : v < U128MOD)
    (hstk : tree.stack.length = 0)
    (hlen1 : tree.nodes.length ≠ 1)
    (hmod : (tree.nodes.length - 1) % tree.K = 0) :
    ∃ nodes' parent_id,
      alookup tree.node_indexes_to_ids (tree.nodes.length / tree.K) = some parent_id ∧
      parent_id ≠ id ∧
      SortitionSumTrees.set trees key v id = some (ainsert trees key
        { tree with
          nodes := nodes',
          ids_to_node_indexes := ainsert
            (ainsert tree.ids_to_node_indexes parent_id (tree.nodes.length + 1))
            id tree.nodes.length,
          node_indexes_to_ids := ainsert
            (ainsert (aremove tree.node_indexes_to_ids (tree.nodes.length / tree.K))
              (tree.nodes.length + 1) parent_id)
            tree.nodes.length id }) ∧
      TreeInv { tree with
          nodes := nodes',
          ids_to_node_indexes := ainsert
            (ainsert tree.ids_to_node_indexes parent_id (tree.nodes.length + 1))
            id tree.nodes.length,
          node_indexes_to_ids := ainsert
            (ainsert (aremove tree.node_indexes_to_ids (tree.nodes.length / tree.K))
              (tree.nodes.length + 1) parent_id)
            tree.nodes.length id } ∧
      nodes'.length = tree.nodes.length + 2 ∧
      nodes'.getD tree.nodes.length 0 = v ∧
      nodes'.getD (tree.nodes.length + 1) 0
        = tree.nodes.getD (tree.nodes.length / tree.K) 0 := by
  have hK2 := hinv.hK
  have hKpos : 0 < tree.K := by omega
  have hKne : tree.K ≠ 0 := by omega
  have hlen0 := hinv.hlen
  have hlen2 : 2 ≤ tree.nodes.length := by omega
  have hstk_nil : tree.stack = [] := List.length_eq_zero.1 hstk
  obtain ⟨pm, hpm⟩ : ∃ t, (tree.nodes.length - 1) / tree.K = t := ⟨_, rfl⟩
  have hdm : tree.K * pm = tree.nodes.length - 1 := by
    have h := Nat.div_add_mod (tree.nodes.length - 1) tree.K
    rw [hpm, hmod] at h
    omega
  have hpm1 : 1 ≤ pm := by
    rcases Nat.eq_zero_or_pos pm with h | h
    · rw [h, Nat.mul_zero] at hdm
      omega
    · exact h
  have hlenK : tree.nodes.length = tree.K * pm + 1 := by omega
  have hdiv : tree.nodes.length / tree.K = pm := by
    rw [nat_div_eq_iff hKpos]
    omega
  have hpmlen : pm < tree.nodes.length := by
    have : pm ≤ tree.K * pm := Nat.le_mul_of_pos_left pm hKpos
    omega
  obtain ⟨pid, hpid⟩ : ∃ pid, alookup tree.node_indexes_to_ids pm = some pid := by
    rcases hinv.hleafcov pm hpm1 hpmlen (by omega) with h | h
    · cases hh : alookup tree.node_indexes_to_ids pm with
      | none => exact absurd hh h
      | some pid => exact ⟨pid, rfl⟩
    · rw [hstk_nil] at h
      exact absurd h (List.not_mem_nil _)
  have hpid_ids : alookup tree.ids_to_node_indexes pid = some pm :=
    hinv.hbij2 _ (alookup_mem hpid)
  obtain ⟨hw1, hw2, hw3, hw4⟩ := hinv.hrange _ (alookup_mem hpid_ids)
  dsimp only at hw1 hw2 hw3 hw4
  have hwlt : tree.nodes.getD pm 0 < U128MOD :=
    hinv.hvals _ (getD_mem_of_lt _ _ hw2)
  have hpid_ne_id : pid ≠ id := by
    intro he
    rw [he, hid] at hpid_ids
    exact Option.noConfusion hpid_ids
  have happlen1 : (tree.nodes ++ [v]).length = tree.nodes.length + 1 := by simp
  have happ1 : ∀ j, j ≠ tree.nodes.length →
      (tree.nodes ++ [v]).getD j 0 = tree.nodes.getD j 0 := by
    intro j hj
    rw [getD_singleton_append, if_neg hj]
  have hval1 : (tree.nodes ++ [v]).getD tree.nodes.length 0 = v := by
    rw [getD_singleton_append, if_pos rfl]
  have hval_pm1 : (tree.nodes ++ [v]).getD pm 0 = tree.nodes.getD pm 0 :=
    happ1 pm (by omega)
  have happ2 : ∀ j, j ≠ tree.nodes.length + 1 →
      ((tree.nodes ++ [v]) ++ [(tree.nodes ++ [v]).getD pm 0]).getD j 0
        = (tree.nodes ++ [v]).getD j 0 := by
    intro j hj
    rw [getD_singleton_append, happlen1, if_neg hj]
  have hval2 : ((tree.nodes ++ [v]) ++ [(tree.nodes ++ [v]).getD pm 0]).getD
      (tree.nodes.length + 1) 0 = tree.nodes.getD pm 0 := by
    rw [getD_singleton_append, happlen1, if_pos rfl, hval_pm1]
  have hlen2' : ((tree.nodes ++ [v]) ++ [(tree.nodes ++ [v]).getD pm 0]).length
      = tree.nodes.length + 2 := by simp
  have hdiff2 : ∀ j, j ≠ tree.nodes.length → j ≠ tree.nodes.length + 1 →
      ((tree.nodes ++ [v]) ++ [(tree.nodes ++ [v]).getD pm 0]).getD j 0
        = tree.nodes.getD j 0 := by
    intro j h1 h2
    rw [happ2 j h2, happ1 j h1]
  have hval2len : ((tree.nodes ++ [v]) ++ [(tree.nodes ++ [v]).getD pm 0]).getD
      tree.nodes.length 0 = v := by
    rw [happ2 _ (by omega), hval1]
  have hno_i1 : ∀ i, tree.K * i + 1 ≠ tree.nodes.length + 1 := by
    intro i he
    have h1 : tree.K * i % tree.K = 0 := Nat.mul_mod_right _ _
    have h2 : tree.K * i = tree.K * pm + 1 := by omega
    rw [h2, Nat.mul_add_mod, Nat.mod_eq_of_lt (by omega : 1 < tree.K)] at h1
    exact Nat.noConfusion h1
  have huniq : ∀ i, tree.K * i + 1 = tree.nodes.length → i = pm := by
    intro i he
    have : tree.K * i = tree.K * pm := by omega
    exact Nat.eq_of_mul_eq_mul_left hKpos this
  have hcsu1 := childSum_update hKpos tree.nodes (tree.nodes ++ [v])
    (by omega : 1 ≤ tree.nodes.length) happ1
  have hcsu2 := childSum_update hKpos (tree.nodes ++ [v])
    ((tree.nodes ++ [v]) ++ [(tree.nodes ++ [v]).getD pm 0])
    (by omega : 1 ≤ tree.nodes.length + 1) happ2
  have hparent1 : (tree.nodes.length - 1) / tree.K = pm := hpm
  have hparent2 : (tree.nodes.length + 1 - 1) / tree.K = pm := by
    simp only [Nat.add_sub_cancel]
    exact hdiv
  have hcons1 : ∀ i, tree.K * i + 1
      < ((tree.nodes ++ [v]) ++ [(tree.nodes ++ [v]).getD pm 0]).length →
      i ≠ (tree.nodes.length - 1) / tree.K →
      ((tree.nodes ++ [v]) ++ [(tree.nodes ++ [v]).getD pm 0]).getD i 0
        = childSum tree.K ((tree.nodes ++ [v]) ++ [(tree.nodes ++ [v]).getD pm 0]) i
          % U128MOD := by
    intro i hi hine
    rw [hpm] at hine
    rw [hlen2'] at hi
    have hilt : tree.K * i + 1 < tree.nodes.length := by
      have hn1 := hno_i1 i
      have hn2 : tree.K * i + 1 ≠ tree.nodes.length := fun he => hine (huniq i he)
      omega
    have hiq : i < tree.nodes.length := by
      have : i ≤ tree.K * i := Nat.le_mul_of_pos_left i hKpos
      omega
    rw [hdiff2 i (by omega) (by omega),
      (hcsu2 i).2 (by rw [hparent2]; exact Ne.symm hine),
      (hcsu1 i).2 (by rw [hparent1]; exact Ne.symm hine)]
    exact hinv.hsum i hilt
  have hoff1 : (((tree.nodes ++ [v]) ++ [(tree.nodes ++ [v]).getD pm 0]).getD
        ((tree.nodes.length - 1) / tree.K) 0 + v) % U128MOD
      = childSum tree.K ((tree.nodes ++ [v]) ++ [(tree.nodes ++ [v]).getD pm 0])
          ((tree.nodes.length - 1) / tree.K) % U128MOD := by
    rw [hpm, hdiff2 pm (by omega) (by omega)]
    have hstar1 := (hcsu1 pm).1 hparent1
    rw [hval1, show tree.nodes.getD tree.nodes.length 0 = 0 from
        List.getD_eq_default _ _ (by omega),
      show childSum tree.K tree.nodes pm = 0 from childSum_of_leaf _ _ (by omega)] at hstar1
    have hstar2 := (hcsu2 pm).1 hparent2
    rw [hval2, show (tree.nodes ++ [v]).getD (tree.nodes.length + 1) 0 = 0 from
        List.getD_eq_default _ _ (by omega)] at hstar2
    have heq : childSum tree.K ((tree.nodes ++ [v]) ++ [(tree.nodes ++ [v]).getD pm 0]) pm
        = v + tree.nodes.getD pm 0 := by omega
    rw [heq]
    have hcomm : tree.nodes.getD pm 0 + v = v + tree.nodes.getD pm 0 := by omega
    rw [hcomm]
  obtain ⟨nodes', hU1, hU2, hU3, hU4, hU5, hU6⟩ :=
    updateParentsLoop_spec_add hKpos hvM tree.nodes.length
      ((tree.nodes ++ [v]) ++ [(tree.nodes ++ [v]).getD pm 0])
      (by omega) (by omega)
      (by
        intro x hx
        rcases List.mem_append.1 hx with h | h
        · rcases List.mem_append.1 h with h' | h'
          · exact hinv.hvals x h'
          · have : x = v := by simpa using h'
            subst this
            exact hvM
        · have : x = (tree.nodes ++ [v]).getD pm 0 := by simpa using h
          subst this
          rw [hval_pm1]
          exact hwlt)
      hcons1 hoff1
  have hlen' : nodes'.length = tree.nodes.length + 2 := by
    rw [hU2, hlen2']
  have hvalti : nodes'.getD tree.nodes.length 0 = v := by
    rw [hU5 _ (self_not_mem_chain hKpos _), hval2len]
  have hvalt1 : nodes'.getD (tree.nodes.length + 1) 0 = tree.nodes.getD pm 0 := by
    rw [hU5 _ (fun h => absurd (mem_chainList_lt hKpos _ _ h) (by omega)), hval2]
  have hval_pres : ∀ j, tree.nodes.length + 2 ≤ tree.K * j + 1 →
      j ≠ tree.nodes.length → j ≠ tree.nodes.length + 1 →
      nodes'.getD j 0 = tree.nodes.getD j 0 := by
    intro j hjleaf h1 h2
    rw [hU5 j (leaf_not_mem_chain
      (show tree.nodes.length < tree.nodes.length + 2 by omega) hjleaf), hdiff2 j h1 h2]
  have hold_leaf_strict : ∀ j, tree.nodes.length ≤ tree.K * j + 1 → j ≠ pm →
      tree.nodes.length + 2 ≤ tree.K * j + 1 := by
    intro j hj hjpm
    have h1 : tree.K * j + 1 ≠ tree.nodes.length := fun he => hjpm (huniq j he)
    have h2 := hno_i1 j
    omega
  refine ⟨nodes', pid, by rw [hdiv]; exact hpid, hpid_ne_id, ?_, ?_, hlen', hvalti,
    by rw [hdiv]; exact hvalt1⟩
  · rw [set_insert_move_eq hkey hid hv0 hstk hlen1 hKne hmod
      (by rw [hdiv]; exact hpid) (by rw [hdiv, happlen1]; omega), bind_and_update_eq]
    dsimp only
    rw [hdiv, hU1]
    dsimp only [Option.map_some']
  · rw [hdiv]
    -- invariant of the final tree
    have hids2 : ∀ a, alookup (ainsert
        (ainsert tree.ids_to_node_indexes pid (tree.nodes.length + 1)) id
        tree.nodes.length) a
        = if id = a then some tree.nodes.length
          else if pid = a then some (tree.nodes.length + 1)
          else alookup tree.ids_to_node_indexes a := by
      intro a
      rw [alookup_ainsert, alookup_ainsert]
    have hidx2 : ∀ a, alookup (ainsert
        (ainsert (aremove tree.node_indexes_to_ids pm) (tree.nodes.length + 1) pid)
        tree.nodes.length id) a
        = if tree.nodes.length = a then some id
          else if tree.nodes.length + 1 = a then some pid
          else if pm = a then none
          else alookup tree.node_indexes_to_ids a := by
      intro a
      rw [alookup_ainsert, alookup_ainsert, alookup_aremove]
    refine ⟨hinv.hK, by dsimp only; omega, hU3, ?_, ?_, ?_, ?_, ?_, ?_, ?_, ?_, ?_, ?_, ?_⟩
    · -- hbij1
      intro p hp
      dsimp only at hp ⊢
      rcases (mem_ainsert_iff _ _ _ _).1 hp with hp | ⟨hp, hpne1⟩
      · subst hp
        dsimp only
        rw [hidx2, if_pos rfl]
      · rcases (mem_ainsert_iff _ _ _ _).1 hp with hp | ⟨hp, hpne2⟩
        · subst hp
          dsimp only at hpne1 ⊢
          rw [hidx2, if_neg (by omega), if_pos rfl]
        · have hb := hinv.hbij1 _ hp
          obtain ⟨h1, h2, h3, h4⟩ := hinv.hrange _ hp
          have hppm : p.2 ≠ pm := by
            intro he
            rw [he, hpid] at hb
            have : pid = p.1 := by simpa using hb
            exact hpne2 this.symm
          rw [hidx2, if_neg (by omega), if_neg (by omega), if_neg (fun he => hppm he.symm)]
          exact hb
    · -- hbij2
      intro p hp
      dsimp only at hp ⊢
      rcases (mem_ainsert_iff _ _ _ _).1 hp with hp | ⟨hp, hpne1⟩
      · subst hp
        dsimp only
        rw [hids2, if_pos rfl]
      · rcases (mem_ainsert_iff _ _ _ _).1 hp with hp | ⟨hp, hpne2⟩
        · subst hp
          dsimp only at hpne1 ⊢
          rw [hids2, if_neg (fun he => hpid_ne_id he.symm), if_pos rfl]
        · rw [mem_aremove_iff] at hp
          have hb := hinv.hbij2 _ hp.1
          have hp2id : p.2 ≠ id := by
            intro he
            rw [he, hid] at hb
            exact Option.noConfusion hb
          have hp2pid : p.2 ≠ pid := by
            intro he
            rw [he, hpid_ids] at hb
            have : pm = p.1 := by simpa using hb
            exact hp.2 this.symm
          rw [hids2, if_neg (fun he => hp2id he.symm), if_neg (fun he => hp2pid he.symm)]
          exact hb
    · exact nodup_keys_ainsert _ _ _ (nodup_keys_ainsert _ _ _ hinv.hnodup1)
    · exact nodup_keys_ainsert _ _ _
        (nodup_keys_ainsert _ _ _ (nodup_keys_aremove _ _ hinv.hnodup2))
    · -- hrange
      intro p hp
      dsimp only at hp ⊢
      rcases (mem_ainsert_iff _ _ _ _).1 hp with hp | ⟨hp, hpne1⟩
      · subst hp
        dsimp only
        refine ⟨by omega, by omega, ?_, ?_⟩
        · rw [hlen']
          have : 2 * tree.nodes.length ≤ tree.K * tree.nodes.length :=
            Nat.mul_le_mul_right _ hK2
          omega
        · rw [hvalti]
          exact hv0
      · rcases (mem_ainsert_iff _ _ _ _).1 hp with hp | ⟨hp, hpne2⟩
        · subst hp
          dsimp only
          refine ⟨by omega, by omega, ?_, ?_⟩
          · rw [hlen']
            have : tree.nodes.length + 1 ≤ tree.K * (tree.nodes.length + 1) :=
              Nat.le_mul_of_pos_left _ hKpos
            omega
          · rw [hvalt1]
            exact hw4
        · have hb := hinv.hbij1 _ hp
          obtain ⟨h1, h2, h3, h4⟩ := hinv.hrange _ hp
          have hppm : p.2 ≠ pm := by
            intro he
            rw [he, hpid] at hb
            have : pid = p.1 := by simpa using hb
            exact hpne2 this.symm
          have h3' := hold_leaf_strict _ h3 hppm
          refine ⟨h1, by omega, by omega, ?_⟩
          rw [hval_pres p.2 h3' (by omega) (by omega)]
          exact h4
    · -- hleafcov
      intro m h1 h2 h3
      dsimp only at h2 h3 ⊢
      rw [hlen'] at h2 h3
      by_cases hm1 : m = tree.nodes.length
      · left
        rw [hidx2, if_pos hm1.symm]
        simp
      · by_cases hm2 : m = tree.nodes.length + 1
        · left
          rw [hidx2, if_neg (by omega), if_pos hm2.symm]
          simp
        · have hmlen : m < tree.nodes.length := by omega
          have hmpm : m ≠ pm := by
            intro he
            subst he
            omega
          rcases hinv.hleafcov m h1 hmlen (by omega) with h | h
          · left
            rw [hidx2, if_neg (by omega), if_neg (by omega),
              if_neg (fun he => hmpm he.symm)]
            exact h
          · rw [hstk_nil] at h
            exact absurd h (List.not_mem_nil _)
    · -- hstack
      intro m hm
      dsimp only at hm
      rw [hstk_nil] at hm
      exact absurd hm (List.not_mem_nil _)
    · -- hstacknd
      dsimp only
      exact hinv.hstacknd
    · -- hroot1
      intro h
      dsimp only at h
      rw [hlen'] at h
      omega
    · -- hsum
      intro i hi
      dsimp only at hi ⊢
      exact hU4 i hi
    · -- hrootsum
      dsimp only
      have hsplit := sum_map_aremove (fun p => tree.nodes.getD p.2 0)
        tree.ids_to_node_indexes pid pm hinv.hnodup1 (alookup_mem hpid_ids)
      dsimp only at hsplit
      have hrm2 : aremove (ainsert tree.ids_to_node_indexes pid (tree.nodes.length + 1)) id
          = (pid, tree.nodes.length + 1) :: aremove tree.ids_to_node_indexes pid := by
        unfold ainsert
        rw [aremove_cons, if_neg hpid_ne_id,
          aremove_eq_of_none (by rw [alookup_aremove_ne _ hpid_ne_id]; exact hid)]
      have hcongr : (aremove tree.ids_to_node_indexes pid).map (fun p => nodes'.getD p.2 0)
          = (aremove tree.ids_to_node_indexes pid).map (fun p => tree.nodes.getD p.2 0) := by
        apply List.map_congr_left
        intro p hp
        rw [mem_aremove_iff] at hp
        have hb := hinv.hbij1 _ hp.1
        obtain ⟨h1, h2, h3, h4⟩ := hinv.hrange _ hp.1
        have hppm : p.2 ≠ pm := by
          intro he
          rw [he, hpid] at hb
          have : pid = p.1 := by simpa using hb
          exact hp.2 this.symm
        exact hval_pres p.2 (hold_leaf_strict _ h3 hppm) (by omega) (by omega)
      have hact : activeSum { tree with
          nodes := nodes',
          ids_to_node_indexes := ainsert
            (ainsert tree.ids_to_node_indexes pid (tree.nodes.length + 1)) id
            tree.nodes.length,
          node_indexes_to_ids := ainsert
            (ainsert (aremove tree.node_indexes_to_ids pm) (tree.nodes.length + 1) pid)
            tree.nodes.length id }
          = v + (tree.nodes.getD pm 0
              + ((aremove tree.ids_to_node_indexes pid).map
                  (fun p => tree.nodes.getD p.2 0)).sum) := by
        unfold activeSum
        dsimp only
        conv_lhs => rw [ainsert]
        rw [hrm2]
        dsimp only [List.map_cons, List.sum_cons]
        rw [hvalti, hvalt1, hcongr]
      rw [hact, hU6, hdiff2 0 (by omega) (by omega), hinv.hrootsum, wadd_eq,
        Nat.mod_add_mod]
      have heq2 : activeSum tree + v
          = v + (tree.nodes.getD pm 0
              + ((aremove tree.ids_to_node_indexes pid).map
                  (fun p => tree.nodes.getD p.2 0)).sum) := by
        have : activeSum tree
            = ((aremove tree.ids_to_node_indexes pid).map
                (fun p => tree.nodes.getD p.2 0)).sum + tree.nodes.getD pm 0 := by
          unfold activeSum
          exact hsplit
        omega
      rw [heq2]

theorem RegInv_ainsert {trees : SortitionSumTrees} {key : TypeKey} {tree : SortitionSumTree}
    (hreg : RegInv trees) (hinv : TreeInv tree) : RegInv (ainsert trees key tree) := by
  intro p hp
  rcases (mem_ainsert_iff _ _ _ _).1 hp with hp | hp
  · rw [hp]
    exact hinv
  · exact hreg _ hp.1

theorem exists_getLast? {l : List Nat} (h : l.length ≠ 0) : ∃ a, l.getLast? = some a := by
  induction l with
  | nil => simp at h
  | cons x rest ih =>
    cases hr : rest with
    | nil => exact ⟨x, rfl⟩
    | cons y t =>
      obtain ⟨a, ha⟩ := ih (by rw [hr]; simp)
      refine ⟨a, ?_⟩
      rw [hr] at ha
      rw [List.getLast?_cons_cons]
      exact ha

/-- Every well-formed public operation succeeds from an invariant registry and
preserves the registry invariant. -/
theorem applyOp_preserves {trees : SortitionSumTrees} (hreg : RegInv trees) {op : Op}
    (hop : WfOp op) : ∃ trees', applyOp trees op = some trees' ∧ RegInv trees' := by
  cases op with
  | createTree key k =>
    exact ⟨create_tree trees key k, rfl, RegInv_ainsert hreg (TreeInv_create hop)⟩
  | setWeight key v id =>
    show ∃ trees', SortitionSumTrees.set trees key v id = some trees' ∧ RegInv trees'
    cases hkey : alookup trees key with
    | none => exact ⟨trees, set_unknown_eq _ _ _ _ hkey, hreg⟩
    | some tree =>
      have hinv : TreeInv tree := hreg _ (alookup_mem hkey)
      cases hid : alookup tree.ids_to_node_indexes id with
      | some n =>
        by_cases hv0 : v = 0
        · subst hv0
          obtain ⟨nodes', h1, h2, h3, h4⟩ := set_remove_spec hkey hinv hid
          exact ⟨_, h1, RegInv_ainsert hreg h2⟩
        · obtain ⟨h1, h2, h3, h4⟩ := hinv.hrange _ (alookup_mem hid)
          dsimp only at h2
          by_cases hveq : v = tree.nodes.getD n 0
          · exact ⟨trees, set_noop_eq hkey hid hv0 h2 hveq, hreg⟩
          · obtain ⟨nodes', hh1, hh2, hh3, hh4⟩ :=
              set_update_spec hkey hinv hid hv0 hop hveq
            exact ⟨_, hh1, RegInv_ainsert hreg hh2⟩
      | none =>
        by_cases hv0 : v = 0
        · subst hv0
          exact ⟨trees, set_absent_zero_eq hkey hid, hreg⟩
        · by_cases hstk : tree.stack.length = 0
          · by_cases hlen1 : tree.nodes.length = 1
            · obtain ⟨nodes', hh1, hh2, hh3, hh4⟩ :=
                set_insert_first_spec hkey hinv hid hv0 hop hstk hlen1
              exact ⟨_, hh1, RegInv_ainsert hreg hh2⟩
            · by_cases hmod : (tree.nodes.length - 1) % tree.K = 0
              · obtain ⟨nodes', pid, hh0, hh0', hh1, hh2, hh3, hh4, hh5⟩ :=
                  set_insert_move_spec hkey hinv hid hv0 hop hstk hlen1 hmod
                exact ⟨_, hh1, RegInv_ainsert hreg hh2⟩
              · obtain ⟨nodes', hh1, hh2, hh3, hh4⟩ :=
                  set_insert_append_spec hkey hinv hid hv0 hop hstk hlen1 hmod
                exact ⟨_, hh1, RegInv_ainsert hreg hh2⟩
          · obtain ⟨ti, hlast⟩ := exists_getLast? hstk
            obtain ⟨nodes', hh1, hh2, hh3, hh4⟩ :=
              set_insert_reuse_spec hkey hinv hid hv0 hop hlast
            exact ⟨_, hh1, RegInv_ainsert hreg hh2⟩

/-- Running any sequence of well-formed public operations from an invariant
registry succeeds and preserves the registry invariant. -/
theorem runOps_inv : ∀ (ops : List Op), (∀ op ∈ ops, WfOp op) →
    ∀ trees : SortitionSumTrees, RegInv trees →
    ∃ trees', runOps ops trees = some trees' ∧ RegInv trees' := by
  intro ops
  induction ops with
  | nil =>
    intro _ trees hreg
    exact ⟨trees, rfl, hreg⟩
  | cons op rest ih =>
    intro hwf trees hreg
    obtain ⟨trees1, h1, hreg1⟩ := applyOp_preserves hreg (hwf op (List.mem_cons_self _ _))
    obtain ⟨trees2, h2, hreg2⟩ :=
      ih (fun o ho => hwf o (List.mem_cons_of_mem _ ho)) trees1 hreg1
    refine ⟨trees2, ?_, hreg2⟩
    unfold runOps
    rw [h1]
    exact h2

theorem RegInv_nil : RegInv [] := by
  intro p hp
  exact absurd hp (List.not_mem_nil _)

/-! ### The `draw` descent -/

/-- If the remaining drawn number is below the total weight of the listed child
slots, the scan breaks at some in-range child whose weight exceeds the
remaining number (in particular it never reads out of bounds). -/
theorem draw_scan_spec {nodes : List Nat} {K t : Nat} :
    ∀ (m i cdn : Nat),
      cdn < ((List.range' i m).map (fun j => nodes.getD (K * t + j) 0)).sum →
      ∃ t' cdn', draw_scan nodes K t cdn (List.range' i m) = some (true, t', cdn') ∧
        t' < nodes.length ∧ cdn' < nodes.getD t' 0 ∧ K * t + i ≤ t' := by
  intro m
  induction m with
  | zero =>
    intro i cdn h
    simp at h
  | succ m ih =>
    intro i cdn h
    rw [List.range'_succ i m 1] at h ⊢
    simp only [List.map_cons, List.sum_cons] at h
    rw [draw_scan]
    by_cases hin : K * t + i < nodes.length
    · rw [if_pos hin]
      by_cases hle : nodes.getD (K * t + i) 0 ≤ cdn
      · rw [if_pos hle]
        obtain ⟨t', cdn', h1, h2, h3, h4⟩ := ih (i + 1) (cdn - nodes.getD (K * t + i) 0)
          (by omega)
        exact ⟨t', cdn', h1, h2, h3, by omega⟩
      · rw [if_neg hle]
        exact ⟨K * t + i, cdn, rfl, hin, by omega, le_refl _⟩
    · exfalso
      have hzero : ((List.range' (i + 1) m).map (fun j => nodes.getD (K * t + j) 0)).sum
          = 0 := by
        apply List.sum_eq_zero
        intro x hx
        rcases List.mem_map.1 hx with ⟨j, hj, hxe⟩
        rw [mem_range'_iff] at hj
        rw [← hxe]
        exact List.getD_eq_default _ _ (by omega)
      have hzero0 : nodes.getD (K * t + i) 0 = 0 :=
        List.getD_eq_default _ _ (by omega)
      omega

/-- The descent loop of `draw` terminates within the fuel on any state that is
sum-consistent mod `2^128`, ending at an in-bounds leaf of positive weight. -/
theorem draw_loop_spec {nodes : List Nat} {K : Nat} (hK : 2 ≤ K)
    (hsum : ∀ i, K * i + 1 < nodes.length →
      nodes.getD i 0 = childSum K nodes i % U128MOD) :
    ∀ fuel t cdn, t < nodes.length → cdn < nodes.getD t 0 →
      nodes.length - t ≤ fuel →
      ∃ tf, draw_loop nodes K fuel t cdn = some tf ∧ tf < nodes.length ∧
        nodes.length ≤ K * tf + 1 ∧ 0 < nodes.getD tf 0 ∧ t ≤ tf ∧
        (K * t + 1 < nodes.length → t < tf) := by
  intro fuel
  induction fuel with
  | zero =>
    intro t cdn ht _ hfuel
    omega
  | succ fuel ih =>
    intro t cdn ht hcdn hfuel
    rw [draw_loop]
    by_cases hint : K * t + 1 < nodes.length
    · rw [if_pos hint]
      have hcs : cdn < ((List.range' 1 K).map (fun j => nodes.getD (K * t + j) 0)).sum := by
        have h1 := hsum t hint
        have h2 : childSum K nodes t % U128MOD ≤ childSum K nodes t := Nat.mod_le _ _
        unfold childSum at h1 h2
        omega
      obtain ⟨t', cdn', hs1, hs2, hs3, hs4⟩ := draw_scan_spec K 1 cdn hcs
      rw [hs1]
      have htt' : t < t' := by
        have : t ≤ K * t := Nat.le_mul_of_pos_left t (by omega)
        omega
      obtain ⟨tf, hl1, hl2, hl3, hl4, hl5, hl6⟩ := ih t' cdn' hs2 hs3 (by omega)
      exact ⟨tf, hl1, hl2, hl3, hl4, by omega, fun _ => by omega⟩
    · rw [if_neg hint]
      exact ⟨t, rfl, ht, by omega, by omega, le_refl _, fun h => absurd h hint⟩

/-- From any reachable tree with nonzero root weight, `draw` succeeds and
returns an identifier bound to an in-bounds leaf of positive weight. -/
theorem draw_success {trees : SortitionSumTrees} {key : TypeKey} {tree : SortitionSumTree}
    (hkey : alookup trees key = some tree) (hinv : TreeInv tree)
    (hroot : tree.nodes.getD 0 0 ≠ 0) (dn : Nat) :
    ∃ id n, draw trees key dn = some id ∧
      alookup tree.ids_to_node_indexes id = some n ∧
      0 < tree.nodes.getD n 0 ∧ n < tree.nodes.length := by
  have hK2 := hinv.hK
  have hlen0 := hinv.hlen
  have hlen2 : 2 ≤ tree.nodes.length := by
    rcases Nat.lt_or_ge tree.nodes.length 2 with h | h
    · have h1 : tree.nodes.length = 1 := by omega
      exact absurd (hinv.hroot1 h1) hroot
    · exact h
  have hcdn : dn % tree.nodes.getD 0 0 < tree.nodes.getD 0 0 :=
    Nat.mod_lt _ (Nat.pos_of_ne_zero hroot)
  obtain ⟨tf, hl1, hl2, hl3, hl4, hl5, hl6⟩ :=
    draw_loop_spec hK2 hinv.hsum (tree.nodes.length + dn % tree.nodes.getD 0 0 + 1)
      0 (dn % tree.nodes.getD 0 0) (by omega) hcdn (by omega)
  have htf1 : 1 ≤ tf := by
    have := hl6 (by
      have : tree.K * 0 + 1 = 1 := by omega
      omega)
    omega
  have htfnostack : tf ∉ tree.stack := by
    intro hmem
    have h := (hinv.hstack tf hmem).2.2.2.1
    omega
  obtain ⟨id, hidx⟩ : ∃ id, alookup tree.node_indexes_to_ids tf = some id := by
    rcases hinv.hleafcov tf htf1 hl2 hl3 with h | h
    · cases hh : alookup tree.node_indexes_to_ids tf with
      | none => exact absurd hh h
      | some id => exact ⟨id, rfl⟩
    · exact absurd h htfnostack
  refine ⟨id, tf, ?_, hinv.hbij2 _ (alookup_mem hidx), hl4, hl2⟩
  unfold draw
  rw [hkey]
  dsimp only
  rw [if_pos hlen0, if_neg hroot, hl1]
  exact hidx

/-! ### Claim theorems -/

/-- C1: on every tree whose root weight is 0, `draw` evaluates
`drawn_number % tree.nodes[0]` with a zero divisor, which is an arithmetic
fault (a Rust panic, modelled by `none`) for every drawn number — not the
explicit, recoverable `EmptyTree` error the specification requires.  This
substantiates the code_bug verdict for the claim. -/
theorem draw_zero_root_is_arithmetic_fault (trees : SortitionSumTrees) (key : TypeKey)
    (tree : SortitionSumTree) (dn : Nat)
    (hkey : alookup trees key = some tree) (hroot : tree.nodes.getD 0 0 = 0) :
    draw trees key dn = none := by
  unfold draw
  rw [hkey]
  dsimp only
  by_cases hlen : 0 < tree.nodes.length
  · rw [if_pos hlen, if_pos hroot]
  · rw [if_neg hlen]

/-- Witness for C1 at a freshly created tree (`create_tree` with K = 2). -/
theorem draw_zero_root_is_arithmetic_fault_witness :
    alookup (create_tree [] 1 2) 1 = some { SortitionSumTree.new 2 with nodes := [0] } ∧
    ({ SortitionSumTree.new 2 with nodes := [0] } : SortitionSumTree).nodes.getD 0 0 = 0 ∧
    draw (create_tree [] 1 2) 1 0 = none :=
  ⟨rfl, rfl, draw_zero_root_is_arithmetic_fault _ _ _ 0 rfl rfl⟩

/-- C2 (amended): running any sequence of well-formed public operations from
the empty registry succeeds, and in every resulting tree each internal node's
weight equals the sum of its children's weights reduced modulo `2^128`, and
the root weight equals the total weight of the active identifiers reduced
modulo `2^128` (exact equality whenever the sums stay below `2^128`;
`sum_consistency_exact_fails` shows the unreduced claim is false). -/
theorem sum_mod_consistency_preserved (ops : List Op) (hwf : ∀ op ∈ ops, WfOp op) :
    ∃ trees', runOps ops [] = some trees' ∧
      ∀ key tree, alookup trees' key = some tree →
        (∀ i, tree.K * i + 1 < tree.nodes.length →
          tree.nodes.getD i 0 = childSum tree.K tree.nodes i % U128MOD) ∧
        tree.nodes.getD 0 0 = activeSum tree % U128MOD := by
  obtain ⟨trees', h1, hreg⟩ := runOps_inv ops hwf [] RegInv_nil
  refine ⟨trees', h1, ?_⟩
  intro key tree hk
  have hinv := hreg _ (alookup_mem hk)
  exact ⟨hinv.hsum, hinv.hrootsum⟩

/-- Counterexample for C2 as written: two stakes of `2^127` overflow the
`u128` root, which wraps to 0, so the root of this reachable tree does not
equal the exact sum of its children (`2^128`). -/
theorem sum_consistency_exact_fails :
    runOps [Op.createTree 1 2, Op.setWeight 1 (2 ^ 127) 100,
        Op.setWeight 1 (2 ^ 127) 200] []
      = some [(1, SortitionSumTree.mk 2 [] [0, 2 ^ 127, 2 ^ 127]
          [(200, 2), (100, 1)] [(2, 200), (1, 100)])] ∧
    (2 : Nat) * 0 + 1 < ([0, 2 ^ 127, 2 ^ 127] : List Nat).length ∧
    ([0, 2 ^ 127, 2 ^ 127] : List Nat).getD 0 0
      ≠ childSum 2 [0, 2 ^ 127, 2 ^ 127] 0 := by
  refine ⟨?_, by decide, by decide⟩
  simp [runOps, applyOp, SortitionSumTrees.set, create_tree, SortitionSumTree.new,
    bind_and_update, update_parents, updateParentsLoop, alookup, ainsert, aremove,
    wadd, wsub, U128MOD]

/-- Witness for C2 at a concrete operation sequence. -/
theorem sum_mod_consistency_preserved_witness :
    (∀ op ∈ [Op.createTree 1 2, Op.setWeight 1 10 100, Op.setWeight 1 20 200,
        Op.setWeight 1 0 100], WfOp op) ∧
    (∃ trees', runOps [Op.createTree 1 2, Op.setWeight 1 10 100, Op.setWeight 1 20 200,
        Op.setWeight 1 0 100] [] = some trees' ∧
      ∀ key tree, alookup trees' key = some tree →
        (∀ i, tree.K * i + 1 < tree.nodes.length →
          tree.nodes.getD i 0 = childSum tree.K tree.nodes i % U128MOD) ∧
        tree.nodes.getD 0 0 = activeSum tree % U128MOD) :=
  ⟨by decide, sum_mod_consistency_preserved _ (by decide)⟩

/-- C3: on a reachable tree, `set(key, v, id)` with `v ≠ 0` followed by
`stake_of(key, id)` returns `v`. -/
theorem set_stakeOf_roundtrip {trees : SortitionSumTrees} {key : TypeKey}
    {tree : SortitionSumTree} (id : TypeAddress) {v : Nat}
    (hkey : alookup trees key = some tree) (hinv : TreeInv tree)
    (hv0 : v ≠ 0) (hvM : v < U128MOD) :
    ∃ trees', SortitionSumTrees.set trees key v id = some trees' ∧
      stake_of trees' key id = some v := by
  cases hid : alookup tree.ids_to_node_indexes id with
  | some n =>
    obtain ⟨h1, h2, h3, h4⟩ := hinv.hrange _ (alookup_mem hid)
    dsimp only at h2
    by_cases hveq : v = tree.nodes.getD n 0
    · refine ⟨trees, set_noop_eq hkey hid hv0 h2 hveq, ?_⟩
      unfold stake_of
      rw [hkey]
      dsimp only
      rw [hid]
      dsimp only
      rw [if_pos h2, hveq]
    · obtain ⟨nodes', hh1, hh2, hh3, hh4⟩ := set_update_spec hkey hinv hid hv0 hvM hveq
      refine ⟨_, hh1, ?_⟩
      unfold stake_of
      rw [alookup_ainsert_self]
      dsimp only
      rw [hid]
      dsimp only
      rw [if_pos (by rw [hh3]; exact h2), hh4]
  | none =>
    by_cases hstk : tree.stack.length = 0
    · by_cases hlen1 : tree.nodes.length = 1
      · obtain ⟨nodes', hh1, hh2, hh3, hh4⟩ :=
          set_insert_first_spec hkey hinv hid hv0 hvM hstk hlen1
        refine ⟨_, hh1, ?_⟩
        unfold stake_of
        rw [alookup_ainsert_self]
        dsimp only
        rw [alookup_ainsert_self]
        dsimp only
        rw [if_pos (by rw [hh3]; omega), hh4]
      · by_cases hmod : (tree.nodes.length - 1) % tree.K = 0
        · obtain ⟨nodes', pid, hh0, hh0', hh1, hh2, hh3, hh4, hh5⟩ :=
            set_insert_move_spec hkey hinv hid hv0 hvM hstk hlen1 hmod
          refine ⟨_, hh1, ?_⟩
          unfold stake_of
          rw [alookup_ainsert_self]
          dsimp only
          rw [alookup_ainsert_self]
          dsimp only
          rw [if_pos (by rw [hh3]; exact (by omega : tree.nodes.length
            < tree.nodes.length + 2)), hh4]
        · obtain ⟨nodes', hh1, hh2, hh3, hh4⟩ :=
            set_insert_append_spec hkey hinv hid hv0 hvM hstk hlen1 hmod
          refine ⟨_, hh1, ?_⟩
          unfold stake_of
          rw [alookup_ainsert_self]
          dsimp only
          rw [alookup_ainsert_self]
          dsimp only
          rw [if_pos (by rw [hh3]; omega), hh4]
    · obtain ⟨ti, hlast⟩ := exists_getLast? hstk
      obtain ⟨nodes', hh1, hh2, hh3, hh4⟩ :=
        set_insert_reuse_spec hkey hinv hid hv0 hvM hlast
      refine ⟨_, hh1, ?_⟩
      have htimem : ti ∈ tree.stack := by
        obtain ⟨s', hs⟩ := getLast?_eq_some_ex hlast
        rw [hs]
        exact List.mem_append_right _ (List.mem_singleton_self _)
      have htilen : ti < tree.nodes.length := (hinv.hstack ti htimem).2.1
      unfold stake_of
      rw [alookup_ainsert_self]
      dsimp only
      rw [alookup_ainsert_self]
      dsimp only
      rw [if_pos (by rw [hh3]; exact htilen), hh4]

/-- Witness for C3 on the reachable one-identifier tree `[10, 10]`. -/
theorem set_stakeOf_roundtrip_witness :
    alookup [(1, SortitionSumTree.mk 2 [] [10, 10] [(100, 1)] [(1, 100)])] 1
      = some (SortitionSumTree.mk 2 [] [10, 10] [(100, 1)] [(1, 100)]) ∧
    TreeInv (SortitionSumTree.mk 2 [] [10, 10] [(100, 1)] [(1, 100)]) ∧
    (7 : Nat) ≠ 0 ∧ (7 : Nat) < U128MOD ∧
    (∃ trees', SortitionSumTrees.set
        [(1, SortitionSumTree.mk 2 [] [10, 10] [(100, 1)] [(1, 100)])] 1 7 200
        = some trees' ∧
      stake_of trees' 1 200 = some 7) := by
  obtain ⟨trees', h1, h2⟩ :=
    runOps_inv [Op.createTree 1 2, Op.setWeight 1 10 100] (by decide) [] RegInv_nil
  have he : runOps [Op.createTree 1 2, Op.setWeight 1 10 100] []
      = some [(1, SortitionSumTree.mk 2 [] [10, 10] [(100, 1)] [(1, 100)])] := by
    simp [runOps, applyOp, SortitionSumTrees.set, create_tree, SortitionSumTree.new,
      bind_and_update, update_parents, updateParentsLoop, alookup, ainsert, aremove,
      wadd, wsub, U128MOD]
  rw [he] at h1
  have he2 : trees' = [(1, SortitionSumTree.mk 2 [] [10, 10] [(100, 1)] [(1, 100)])] :=
    (Option.some.inj h1).symm
  subst he2
  have hinv : TreeInv (SortitionSumTree.mk 2 [] [10, 10] [(100, 1)] [(1, 100)]) :=
    h2 _ (alookup_mem (show alookup [(1, SortitionSumTree.mk 2 [] [10, 10]
      [(100, 1)] [(1, 100)])] 1 = some _ from rfl))
  exact ⟨rfl, hinv, by decide, by decide,
    set_stakeOf_roundtrip 200 rfl hinv (by decide) (by decide)⟩

/-- C4: on a reachable tree, `set(key, 0, id)` for an active identifier makes
`stake_of` return 0, pushes the freed node index onto the free-list stack
without shrinking the node array, and the next insertion of a fresh identifier
with nonzero value pops that most recently freed index and reuses it, so the
node array length does not grow on that insert. -/
theorem set_zero_frees_and_insert_reuses {trees : SortitionSumTrees} {key : TypeKey}
    {tree : SortitionSumTree} {id : TypeAddress} {n : Nat}
    (hkey : alookup trees key = some tree) (hinv : TreeInv tree)
    (hid : alookup tree.ids_to_node_indexes id = some n) :
    ∃ trees' tree', SortitionSumTrees.set trees key 0 id = some trees' ∧
      alookup trees' key = some tree' ∧
      stake_of trees' key id = some 0 ∧
      tree'.stack = tree.stack ++ [n] ∧
      tree'.nodes.length = tree.nodes.length ∧
      ∀ v' id', v' ≠ 0 → v' < U128MOD →
        alookup tree'.ids_to_node_indexes id' = none →
        ∃ trees'' tree'', SortitionSumTrees.set trees' key v' id' = some trees'' ∧
          alookup trees'' key = some tree'' ∧
          alookup tree''.ids_to_node_indexes id' = some n ∧
          tree''.nodes.length = tree.nodes.length := by
  obtain ⟨nodes', h1, h2, h3, h4⟩ := set_remove_spec hkey hinv hid
  refine ⟨_, _, h1, alookup_ainsert_self _ _ _, ?_, rfl, h3, ?_⟩
  · unfold stake_of
    rw [alookup_ainsert_self]
    dsimp only
    rw [alookup_aremove_self]
  · intro v' id' hv0 hvM hid'
    have hlast : (tree.stack ++ [n]).getLast? = some n := by
      simp
    obtain ⟨nodes'', g1, g2, g3, g4⟩ :=
      set_insert_reuse_spec (alookup_ainsert_self _ _ _) h2 hid' hv0 hvM hlast
    refine ⟨_, _, g1, alookup_ainsert_self _ _ _, alookup_ainsert_self _ _ _, ?_⟩
    exact g3.trans h3

/-- C5: on a reachable tree with positive root weight, `draw` returns, for
every drawn number, an identifier that is currently bound in the tree and
whose stake is strictly positive. -/
theorem draw_returns_active_identifier {trees : SortitionSumTrees} {key : TypeKey}
    {tree : SortitionSumTree}
    (hkey : alookup trees key = some tree) (hinv : TreeInv tree)
    (hroot : tree.nodes.getD 0 0 ≠ 0) (dn : Nat) :
    ∃ id w, draw trees key dn = some id ∧
      (alookup tree.ids_to_node_indexes id).isSome ∧
      stake_of trees key id = some w ∧ 0 < w := by
  obtain ⟨id, n, hdraw, hids, hpos, hlt⟩ := draw_success hkey hinv hroot dn
  refine ⟨id, tree.nodes.getD n 0, hdraw, by rw [hids]; rfl, ?_, hpos⟩
  unfold stake_of
  rw [hkey]
  dsimp only
  rw [hids]
  dsimp only
  rw [if_pos hlt]

/-- C10: on a reachable tree with positive root weight, `draw` never indexes
the node array out of bounds during the child scan and the final identifier
lookup always succeeds: the computation (whose `none` result models exactly
those panics) returns a value for every drawn number. -/
theorem draw_scan_in_bounds {trees : SortitionSumTrees} {key : TypeKey}
    {tree : SortitionSumTree}
    (hkey : alookup trees key = some tree) (hinv : TreeInv tree)
    (hroot : tree.nodes.getD 0 0 ≠ 0) (dn : Nat) :
    (draw trees key dn).isSome := by
  obtain ⟨id, n, hdraw, _, _, _⟩ := draw_success hkey hinv hroot dn
  rw [hdraw]
  rfl

/-- C6: `query_leaves`' start-index loop tests `tree.K + 1 >= tree.nodes.len()`,
a condition independent of the loop variable, so on this reachable 5-node
tree with K = 2 it returns start index 0 although the smallest index `i` with
`K*i + 1 ≥ arrayLength` is 2 — the claimed characterisation of `startIndex`
fails.  This substantiates the code_bug verdict for the claim. -/
theorem query_leaves_start_index_defect :
    runOps [Op.createTree 1 2, Op.setWeight 1 10 100, Op.setWeight 1 20 200,
        Op.setWeight 1 5 300] []
      = some [(1, SortitionSumTree.mk 2 [] [35, 15, 20, 5, 10]
          [(300, 3), (100, 4), (200, 2)] [(3, 300), (4, 100), (2, 200)])] ∧
    (query_leaves [(1, SortitionSumTree.mk 2 [] [35, 15, 20, 5, 10]
        [(300, 3), (100, 4), (200, 2)] [(3, 300), (4, 100), (2, 200)])] 1 0 5).1 = 0 ∧
    ¬ (2 * 0 + 1 ≥ ([35, 15, 20, 5, 10] : List Nat).length) ∧
    ¬ (2 * 1 + 1 ≥ ([35, 15, 20, 5, 10] : List Nat).length) ∧
    2 * 2 + 1 ≥ ([35, 15, 20, 5, 10] : List Nat).length := by
  refine ⟨?_, by decide, by decide, by decide, by decide⟩
  simp [runOps, applyOp, SortitionSumTrees.set, create_tree, SortitionSumTree.new,
    bind_and_update, update_parents, updateParentsLoop, alookup, ainsert, aremove,
    wadd, wsub, U128MOD]

/-- C9: on this reachable tree, `update_parents` with the subtracting sign and
an amount (10) exceeding the root's weight (5) silently wraps the root to
`2^128 - 5` instead of reporting an InvariantViolation error — the subtraction
is unchecked.  This substantiates the code_bug verdict for the claim. -/
theorem update_parents_silent_wraparound :
    runOps [Op.createTree 1 2, Op.setWeight 1 5 100] []
      = some [(1, SortitionSumTree.mk 2 [] [5, 5] [(100, 1)] [(1, 100)])] ∧
    (10 : Nat) > ([5, 5] : List Nat).getD 0 0 ∧
    update_parents [(1, SortitionSumTree.mk 2 [] [5, 5] [(100, 1)] [(1, 100)])] 1 1 false 10
      = some [(1, SortitionSumTree.mk 2 [] [2 ^ 128 - 5, 5] [(100, 1)] [(1, 100)])] := by
  refine ⟨?_, by decide, ?_⟩
  · simp [runOps, applyOp, SortitionSumTrees.set, create_tree, SortitionSumTree.new,
      bind_and_update, update_parents, updateParentsLoop, alookup, ainsert, aremove,
      wadd, wsub, U128MOD]
  · simp [update_parents, updateParentsLoop, alookup, ainsert, aremove, wsub, U128MOD]

/-- C7: on a reachable tree, inserting a fresh identifier with the free list
empty, at an appended index that is the first child slot of its parent
(`index ≠ 1` and `(index - 1) % K = 0`), appends exactly one additional node
carrying the parent's previous leaf weight, re-binds the identifier that
lived at the parent index to the new node `index + 1` in both maps, and
leaves the parent index with no identifier. -/
theorem set_first_child_parent_move {trees : SortitionSumTrees} {key : TypeKey}
    {tree : SortitionSumTree} {id : TypeAddress} {v : Nat}
    (hkey : alookup trees key = some tree) (hinv : TreeInv tree)
    (hid : alookup tree.ids_to_node_indexes id = none)
    (hv0 : v ≠ 0) (hvM : v < U128MOD)
    (hstk : tree.stack.length = 0)
    (hlen1 : tree.nodes.length ≠ 1)
    (hmod : (tree.nodes.length - 1) % tree.K = 0) :
    ∃ trees' tree' parent_id,
      alookup tree.node_indexes_to_ids (tree.nodes.length / tree.K) = some parent_id ∧
      SortitionSumTrees.set trees key v id = some trees' ∧
      alookup trees' key = some tree' ∧
      tree'.nodes.length = tree.nodes.length + 2 ∧
      tree'.nodes.getD tree.nodes.length 0 = v ∧
      tree'.nodes.getD (tree.nodes.length + 1) 0
        = tree.nodes.getD (tree.nodes.length / tree.K) 0 ∧
      alookup tree'.ids_to_node_indexes parent_id = some (tree.nodes.length + 1) ∧
      alookup tree'.node_indexes_to_ids (tree.nodes.length + 1) = some parent_id ∧
      alookup tree'.node_indexes_to_ids (tree.nodes.length / tree.K) = none ∧
      alookup tree'.ids_to_node_indexes id = some tree.nodes.length ∧
      alookup tree'.node_indexes_to_ids tree.nodes.length = some id := by
  obtain ⟨nodes', pid, hp0, hpne, hset, hinv2, hlen2, hgl, hgl1⟩ :=
    set_insert_move_spec hkey hinv hid hv0 hvM hstk hlen1 hmod
  have hK2 := hinv.hK
  have hlen := hinv.hlen
  have hdivlt : tree.nodes.length / tree.K < tree.nodes.length :=
    Nat.div_lt_self (by omega) (by omega)
  refine ⟨_, _, pid, hp0, hset, alookup_ainsert_self _ _ _, hlen2, hgl, hgl1,
    ?_, ?_, ?_, alookup_ainsert_self _ _ _, alookup_ainsert_self _ _ _⟩
  · rw [alookup_ainsert_ne _ _ (Ne.symm hpne)]
    exact alookup_ainsert_self _ _ _
  · rw [alookup_ainsert_ne _ _ (by omega : tree.nodes.length ≠ tree.nodes.length + 1)]
    exact alookup_ainsert_self _ _ _
  · rw [alookup_ainsert_ne _ _ (by omega : tree.nodes.length ≠ tree.nodes.length / tree.K),
      alookup_ainsert_ne _ _ (by omega : tree.nodes.length + 1 ≠ tree.nodes.length / tree.K)]
    exact alookup_aremove_self _ _

/-- C8: every public operation on a key absent from the registry is a no-op or
returns the zero-valued defaults, never an error: `set` leaves the registry
unchanged, `stake_of` returns 0, `draw` returns the default identifier 0,
and `query_leaves` returns start index 0, no values and no more pages. -/
theorem unknown_key_defaults (trees : SortitionSumTrees) (key : TypeKey)
    (hkey : alookup trees key = none) (v : Nat) (id : TypeAddress)
    (dn cursor count : Nat) :
    SortitionSumTrees.set trees key v id = some trees ∧
    stake_of trees key id = some 0 ∧
    draw trees key dn = some 0 ∧
    query_leaves trees key cursor count = (0, [], false) := by
  refine ⟨?_, ?_, ?_, ?_⟩
  · unfold SortitionSumTrees.set
    rw [hkey]
  · unfold stake_of
    rw [hkey]
  · unfold draw
    rw [hkey]
  · unfold query_leaves
    rw [hkey]

/-- Witness for C4 on the reachable tree `[30, 10, 20]`, freeing identifier
100 at node index 1. -/
theorem set_zero_frees_and_insert_reuses_witness :
    alookup [(1, SortitionSumTree.mk 2 [] [30, 10, 20] [(200, 2), (100, 1)]
        [(2, 200), (1, 100)])] 1
      = some (SortitionSumTree.mk 2 [] [30, 10, 20] [(200, 2), (100, 1)]
        [(2, 200), (1, 100)]) ∧
    TreeInv (SortitionSumTree.mk 2 [] [30, 10, 20] [(200, 2), (100, 1)]
        [(2, 200), (1, 100)]) ∧
    alookup (SortitionSumTree.mk 2 [] [30, 10, 20] [(200, 2), (100, 1)]
        [(2, 200), (1, 100)]).ids_to_node_indexes 100 = some 1 ∧
    (∃ trees' tree', SortitionSumTrees.set [(1, SortitionSumTree.mk 2 [] [30, 10, 20]
          [(200, 2), (100, 1)] [(2, 200), (1, 100)])] 1 0 100 = some trees' ∧
      alookup trees' 1 = some tree' ∧
      stake_of trees' 1 100 = some 0 ∧
      tree'.stack = [1] ∧
      tree'.nodes.length = 3 ∧
      ∀ v' id', v' ≠ 0 → v' < U128MOD →
        alookup tree'.ids_to_node_indexes id' = none →
        ∃ trees'' tree'', SortitionSumTrees.set trees' 1 v' id' = some trees'' ∧
          alookup trees'' 1 = some tree'' ∧
          alookup tree''.ids_to_node_indexes id' = some 1 ∧
          tree''.nodes.length = 3) := by
  obtain ⟨trees', hrun, hreg⟩ := runOps_inv
    [Op.createTree 1 2, Op.setWeight 1 10 100, Op.setWeight 1 20 200] (by decide) [] RegInv_nil
  have he : runOps [Op.createTree 1 2, Op.setWeight 1 10 100, Op.setWeight 1 20 200] []
      = some [(1, SortitionSumTree.mk 2 [] [30, 10, 20] [(200, 2), (100, 1)]
        [(2, 200), (1, 100)])] := by
    simp [runOps, applyOp, SortitionSumTrees.set, create_tree, SortitionSumTree.new,
      bind_and_update, update_parents, updateParentsLoop, alookup, ainsert, aremove,
      wadd, wsub, U128MOD]
  rw [he] at hrun
  have he2 : trees' = [(1, SortitionSumTree.mk 2 [] [30, 10, 20] [(200, 2), (100, 1)]
      [(2, 200), (1, 100)])] := (Option.some.inj hrun).symm
  subst he2
  have hinv : TreeInv (SortitionSumTree.mk 2 [] [30, 10, 20] [(200, 2), (100, 1)]
      [(2, 200), (1, 100)]) :=
    hreg _ (alookup_mem (show alookup [(1, SortitionSumTree.mk 2 [] [30, 10, 20]
      [(200, 2), (100, 1)] [(2, 200), (1, 100)])] 1
      = some (SortitionSumTree.mk 2 [] [30, 10, 20] [(200, 2), (100, 1)]
        [(2, 200), (1, 100)]) from rfl))
  exact ⟨rfl, hinv, rfl, set_zero_frees_and_insert_reuses
    (show alookup [(1, SortitionSumTree.mk 2 [] [30, 10, 20] [(200, 2), (100, 1)]
      [(2, 200), (1, 100)])] 1
      = some (SortitionSumTree.mk 2 [] [30, 10, 20] [(200, 2), (100, 1)]
        [(2, 200), (1, 100)]) from rfl) hinv rfl⟩

/-- Witness for C5 on the reachable tree `[10, 10]` with drawn number 5. -/
theorem draw_returns_active_identifier_witness :
    alookup [(1, SortitionSumTree.mk 2 [] [10, 10] [(100, 1)] [(1, 100)])] 1
      = some (SortitionSumTree.mk 2 [] [10, 10] [(100, 1)] [(1, 100)]) ∧
    TreeInv (SortitionSumTree.mk 2 [] [10, 10] [(100, 1)] [(1, 100)]) ∧
    (SortitionSumTree.mk 2 [] [10, 10] [(100, 1)] [(1, 100)]).nodes.getD 0 0 ≠ 0 ∧
    (∃ id w, draw [(1, SortitionSumTree.mk 2 [] [10, 10] [(100, 1)] [(1, 100)])] 1 5
        = some id ∧
      (alookup (SortitionSumTree.mk 2 [] [10, 10] [(100, 1)]
        [(1, 100)]).ids_to_node_indexes id).isSome ∧
      stake_of [(1, SortitionSumTree.mk 2 [] [10, 10] [(100, 1)] [(1, 100)])] 1 id
        = some w ∧ 0 < w) := by
  obtain ⟨trees', hrun, hreg⟩ := runOps_inv [Op.createTree 1 2, Op.setWeight 1 10 100]
    (by decide) [] RegInv_nil
  have he : runOps [Op.createTree 1 2, Op.setWeight 1 10 100] []
      = some [(1, SortitionSumTree.mk 2 [] [10, 10] [(100, 1)] [(1, 100)])] := by
    simp [runOps, applyOp, SortitionSumTrees.set, create_tree, SortitionSumTree.new,
      bind_and_update, update_parents, updateParentsLoop, alookup, ainsert, aremove,
      wadd, wsub, U128MOD]
  rw [he] at hrun
  have he2 : trees' = [(1, SortitionSumTree.mk 2 [] [10, 10] [(100, 1)] [(1, 100)])] :=
    (Option.some.inj hrun).symm
  subst he2
  have hinv : TreeInv (SortitionSumTree.mk 2 [] [10, 10] [(100, 1)] [(1, 100)]) :=
    hreg _ (alookup_mem (show alookup [(1, SortitionSumTree.mk 2 [] [10, 10]
      [(100, 1)] [(1, 100)])] 1
      = some (SortitionSumTree.mk 2 [] [10, 10] [(100, 1)] [(1, 100)]) from rfl))
  exact ⟨rfl, hinv, by decide, draw_returns_active_identifier
    (show alookup [(1, SortitionSumTree.mk 2 [] [10, 10] [(100, 1)] [(1, 100)])] 1
      = some (SortitionSumTree.mk 2 [] [10, 10] [(100, 1)] [(1, 100)]) from rfl)
    hinv (by decide) 5⟩

/-- Witness for C7 on the reachable tree `[30, 10, 20]` (length 3, K = 2, so
the appended index 3 is a first child slot), inserting identifier 300. -/
theorem set_first_child_parent_move_witness :
    alookup [(1, SortitionSumTree.mk 2 [] [30, 10, 20] [(200, 2), (100, 1)]
        [(2, 200), (1, 100)])] 1
      = some (SortitionSumTree.mk 2 [] [30, 10, 20] [(200, 2), (100, 1)]
        [(2, 200), (1, 100)]) ∧
    TreeInv (SortitionSumTree.mk 2 [] [30, 10, 20] [(200, 2), (100, 1)]
        [(2, 200), (1, 100)]) ∧
    alookup (SortitionSumTree.mk 2 [] [30, 10, 20] [(200, 2), (100, 1)]
        [(2, 200), (1, 100)]).ids_to_node_indexes 300 = none ∧
    (5 : Nat) ≠ 0 ∧ (5 : Nat) < U128MOD ∧
    (SortitionSumTree.mk 2 [] [30, 10, 20] [(200, 2), (100, 1)]
        [(2, 200), (1, 100)]).stack.length = 0 ∧
    (SortitionSumTree.mk 2 [] [30, 10, 20] [(200, 2), (100, 1)]
        [(2, 200), (1, 100)]).nodes.length ≠ 1 ∧
    ((SortitionSumTree.mk 2 [] [30, 10, 20] [(200, 2), (100, 1)]
        [(2, 200), (1, 100)]).nodes.length - 1) % 2 = 0 ∧
    (∃ trees' tree' parent_id,
      alookup (SortitionSumTree.mk 2 [] [30, 10, 20] [(200, 2), (100, 1)]
        [(2, 200), (1, 100)]).node_indexes_to_ids 1 = some parent_id ∧
      SortitionSumTrees.set [(1, SortitionSumTree.mk 2 [] [30, 10, 20]
          [(200, 2), (100, 1)] [(2, 200), (1, 100)])] 1 5 300 = some trees' ∧
      alookup trees' 1 = some tree' ∧
      tree'.nodes.length = 5 ∧
      tree'.nodes.getD 3 0 = 5 ∧
      tree'.nodes.getD 4 0 = 10 ∧
      alookup tree'.ids_to_node_indexes parent_id = some 4 ∧
      alookup tree'.node_indexes_to_ids 4 = some parent_id ∧
      alookup tree'.node_indexes_to_ids 1 = none ∧
      alookup tree'.ids_to_node_indexes 300 = some 3 ∧
      alookup tree'.node_indexes_to_ids 3 = some 300) := by
  obtain ⟨trees', hrun, hreg⟩ := runOps_inv
    [Op.createTree 1 2, Op.setWeight 1 10 100, Op.setWeight 1 20 200] (by decide) [] RegInv_nil
  have he : runOps [Op.createTree 1 2, Op.setWeight 1 10 100, Op.setWeight 1 20 200] []
      = some [(1, SortitionSumTree.mk 2 [] [30, 10, 20] [(200, 2), (100, 1)]
        [(2, 200), (1, 100)])] := by
    simp [runOps, applyOp, SortitionSumTrees.set, create_tree, SortitionSumTree.new,
      bind_and_update, update_parents, updateParentsLoop, alookup, ainsert, aremove,
      wadd, wsub, U128MOD]
  rw [he] at hrun
  have he2 : trees' = [(1, SortitionSumTree.mk 2 [] [30, 10, 20] [(200, 2), (100, 1)]
      [(2, 200), (1, 100)])] := (Option.some.inj hrun).symm
  subst he2
  have hinv : TreeInv (SortitionSumTree.mk 2 [] [30, 10, 20] [(200, 2), (100, 1)]
      [(2, 200), (1, 100)]) :=
    hreg _ (alookup_mem (show alookup [(1, SortitionSumTree.mk 2 [] [30, 10, 20]
      [(200, 2), (100, 1)] [(2, 200), (1, 100)])] 1
      = some (SortitionSumTree.mk 2 [] [30, 10, 20] [(200, 2), (100, 1)]
        [(2, 200), (1, 100)]) from rfl))
  exact ⟨rfl, hinv, rfl, by decide, by decide, rfl, by decide, by decide,
    set_first_child_parent_move rfl hinv rfl (by decide) (by decide) rfl
      (by decide) (by decide)⟩

/-- Witness for C8 on the empty registry with key 7. -/
theorem unknown_key_defaults_witness :
    alookup ([] : SortitionSumTrees) 7 = none ∧
    (SortitionSumTrees.set [] 7 3 100 = some [] ∧
     stake_of [] 7 100 = some 0 ∧
     draw [] 7 5 = some 0 ∧
     query_leaves [] 7 0 2 = (0, [], false)) :=
  ⟨rfl, unknown_key_defaults [] 7 rfl 3 100 5 0 2⟩

/-- Witness for C10 on the reachable tree `[30, 10, 20]` with drawn number 15. -/
theorem draw_scan_in_bounds_witness :
    alookup [(1, SortitionSumTree.mk 2 [] [30, 10, 20] [(200, 2), (100, 1)]
        [(2, 200), (1, 100)])] 1
      = some (SortitionSumTree.mk 2 [] [30, 10, 20] [(200, 2), (100, 1)]
        [(2, 200), (1, 100)]) ∧
    (SortitionSumTree.mk 2 [] [30, 10, 20] [(200, 2), (100, 1)]
        [(2, 200), (1, 100)]).nodes.getD 0 0 ≠ 0 ∧
    (draw [(1, SortitionSumTree.mk 2 [] [30, 10, 20] [(200, 2), (100, 1)]
        [(2, 200), (1, 100)])] 1 15).isSome := by
  obtain ⟨trees', hrun, hreg⟩ := runOps_inv
    [Op.createTree 1 2, Op.setWeight 1 10 100, Op.setWeight 1 20 200] (by decide) [] RegInv_nil
  have he : runOps [Op.createTree 1 2, Op.setWeight 1 10 100, Op.setWeight 1 20 200] []
      = some [(1, SortitionSumTree.mk 2 [] [30, 10, 20] [(200, 2), (100, 1)]
        [(2, 200), (1, 100)])] := by
    simp [runOps, applyOp, SortitionSumTrees.set, create_tree, SortitionSumTree.new,
      bind_and_update, update_parents, updateParentsLoop, alookup, ainsert, aremove,
      wadd, wsub, U128MOD]
  rw [he] at hrun
  have he2 : trees' = [(1, SortitionSumTree.mk 2 [] [30, 10, 20] [(200, 2), (100, 1)]
      [(2, 200), (1, 100)])] := (Option.some.inj hrun).symm
  subst he2
  have hinv : TreeInv (SortitionSumTree.mk 2 [] [30, 10, 20] [(200, 2), (100, 1)]
      [(2, 200), (1, 100)]) :=
    hreg _ (alookup_mem (show alookup [(1, SortitionSumTree.mk 2 [] [30, 10, 20]
      [(200, 2), (100, 1)] [(2, 200), (1, 100)])] 1
      = some (SortitionSumTree.mk 2 [] [30, 10, 20] [(200, 2), (100, 1)]
        [(2, 200), (1, 100)]) from rfl))
  exact ⟨rfl, by decide, draw_scan_in_bounds
    (show alookup [(1, SortitionSumTree.mk 2 [] [30, 10, 20] [(200, 2), (100, 1)]
      [(2, 200), (1, 100)])] 1
      = some (SortitionSumTree.mk 2 [] [30, 10, 20] [(200, 2), (100, 1)]
        [(2, 200), (1, 100)]) from rfl) hinv (by decide) 15⟩
